import Mathlib

/-!
# Verification of the eraser-renderer core (tokenizer, parser, layout helpers)

This file is a shallow embedding, in Lean 4, of the algorithmic core of the
`eraser-renderer` repository: the tokenizer (`src/.../lexer/tokenize`), the
recursive-descent parser (`src/packages/core/src/parser/parser.ts`), the
AST-based diagram-type classifier, and the layout helpers
(`computeGroupLayout`, `computeGraphLayout`'s registration phase,
`computeEdgeRouting`, `getRoundedPath`).

Modelling conventions:
* The mutable cursor (`this.pos`) of the TypeScript parser is modelled by
  passing the remaining suffix of the token list.  `peek` beyond the end of
  the stream returns the last token in TypeScript; on every stream produced
  by `tokenize` the last token is the end-of-input token, so on suffixes the
  exhausted-lookahead case is modelled by a default EOF token.
* JavaScript exceptions (undefined-property accesses) are modelled by
  `Option`: `none` is a thrown error.  Divergence of unboundedly fuelled
  loops is also modelled by `Option` together with an explicit fuel
  parameter; a theorem shows the fuel used by the public entry points is
  always sufficient, which is the termination claim of the specification.
* JavaScript numbers are modelled by `Int` where only `min`/`max`/`±` exact
  arithmetic is involved; `Math.sqrt` (used only by the corner-rounding
  helper) is an external primitive and is passed as a function parameter.
-/

/-! ## Token data model (`src/.../lexer/token-types`) -/

inductive TokenType where
  | IDENT | NUMBER | STRING
  | LBRACE | RBRACE | LBRACK | RBRACK | COLON | COMMA
  | GT | LT | GT_LT | ARROW | DASH | PIPE | AT
  | NEWLINE | EOF | OTHER
  deriving DecidableEq, Repr

structure Token where
  type : TokenType
  text : String
  line : Nat
  col : Nat
  deriving DecidableEq, Repr

/-! ## Tokenizer (`src/unnamed/part_002`, function `tokenize`)

The JavaScript scanner walks the input string with an index `i`; here the
remaining characters are passed as a list.  Each loop iteration consumes at
least one character, so the recursion is structural on the number of
remaining characters. -/

/-- The character class of JavaScript's `/\s/` (whitespace), restricted to
the code points the regex matches. -/
def jsIsSpace (c : Char) : Bool :=
  c = ' ' || c = '\t' || c = '\n' || c = '\r' ||
  c.val = 0x0b || c.val = 0x0c ||
  c.val = 0xa0 || c.val = 0x1680 ||
  (0x2000 ≤ c.val && c.val ≤ 0x200a) ||
  c.val = 0x2028 || c.val = 0x2029 || c.val = 0x202f || c.val = 0x205f ||
  c.val = 0x3000 || c.val = 0xfeff

/-- The character class of `isAlphaNumUnderscore`: `/[A-Za-z0-9_\-\.]/`.
Note that it contains the dash and the dot (kebab-case and dotted ids). -/
def isAlphaNumUnderscore (c : Char) : Bool :=
  ('A' ≤ c && c ≤ 'Z') || ('a' ≤ c && c ≤ 'z') || ('0' ≤ c && c ≤ '9') ||
  c = '_' || c = '-' || c = '.'

/-- `toLowerCase()` re-expressed by direct list traversal (the library
`String.toLower` recurses on byte positions and does not reduce inside the
kernel). -/
def strToLower (s : String) : String := String.mk (s.data.map Char.toLower)

/-- JavaScript `String.prototype.trim()`: strip `\s` characters from both
ends of the string. -/
def strTrim (s : String) : String :=
  String.mk (((s.data.dropWhile jsIsSpace).reverse.dropWhile jsIsSpace).reverse)

/-- Split a character list at every separator character (empty pieces are
kept, as with JavaScript `split`). -/
def splitCharsOn (p : Char → Bool) : List Char → List Char → List String
  | [], acc => [String.mk acc.reverse]
  | c :: rest, acc =>
    if p c then String.mk acc.reverse :: splitCharsOn p rest []
    else splitCharsOn p rest (c :: acc)

/-- Substring occurrence, the semantics of JavaScript
`String.prototype.includes`. -/
def subOccurs (pat : List Char) : List Char → Bool
  | [] => pat.isEmpty
  | c :: rest => pat.isPrefixOf (c :: rest) || subOccurs pat rest

/-- The body scan of a quoted string: from the character after the opening
quote, with single-character escape state.  Returns the accumulated content,
the number of characters consumed, and the characters remaining *at* the
closing quote (the closing quote itself is not consumed here). -/
def scanStringBody (q : Char) : List Char → Bool → List Char →
    List Char × Nat × List Char
  | [], _, acc => (acc, 0, [])
  | c :: rest, escaped, acc =>
    if c = '\\' && !escaped then
      let r := scanStringBody q rest true acc
      (r.1, r.2.1 + 1, r.2.2)
    else if c = q && !escaped then
      (acc, 0, c :: rest)
    else
      let r := scanStringBody q rest false (acc ++ [c])
      (r.1, r.2.1 + 1, r.2.2)

/-- One step of the token scanner: the body of the main `while` loop of
`tokenize` for a current character `c` with remaining characters `cs`.
Returns the emitted token (`none` for skipped whitespace), the characters
remaining after the step, and the updated line/column counters. -/
def scanToken (c : Char) (cs : List Char) (line col : Nat) :
    Option Token × List Char × Nat × Nat :=
  if c = '\n' then
    (some ⟨.NEWLINE, "\n", line, col⟩, cs, line + 1, 1)
  else if jsIsSpace c then
    (none, cs, line, col + 1)
  else if c = '/' && cs.head? = some '/' then
    -- line comment: consume to the newline, emit an OTHER token
    -- (the head `/` is not a newline, so the scan is split as head :: tail)
    (some ⟨.OTHER, String.mk (c :: cs.takeWhile (fun x => x ≠ '\n')), line, col⟩,
      cs.dropWhile (fun x => x ≠ '\n'), line, col)
  else if c = '-' && cs.head? = some '-' && cs.tail.head? = some '>' then
    (some ⟨.ARROW, "-->", line, col⟩, cs.tail.tail, line, col + 3)
  else if c = '-' && cs.head? = some '>' then
    (some ⟨.ARROW, "->", line, col⟩, cs.tail, line, col + 2)
  else if c = '<' && cs.head? = some '>' then
    (some ⟨.GT_LT, "<>", line, col⟩, cs.tail, line, col + 2)
  else if c = '<' then
    (some ⟨.LT, "<", line, col⟩, cs, line, col + 1)
  else if c = '>' then
    (some ⟨.GT, ">", line, col⟩, cs, line, col + 1)
  else if c = '"' || c = '\'' then
    -- quoted string with escape tracking; tolerates a missing close quote
    let r := scanStringBody c cs false []
    let hasClose := r.2.2.head? = some c
    let consumed := 1 + r.2.1 + (if hasClose then 1 else 0)
    (some ⟨.STRING, String.mk r.1, line, col⟩,
      if hasClose then r.2.2.tail else r.2.2, line, col + consumed)
  else if isAlphaNumUnderscore c then
    -- the head character passes the class test, so the scan is
    -- head :: takeWhile over the tail
    let ident := c :: cs.takeWhile isAlphaNumUnderscore
    (some ⟨.IDENT, String.mk ident, line, col⟩,
      cs.dropWhile isAlphaNumUnderscore, line, col + ident.length)
  else if c = '{' then (some ⟨.LBRACE, "\x7b", line, col⟩, cs, line, col + 1)
  else if c = '}' then (some ⟨.RBRACE, "\x7d", line, col⟩, cs, line, col + 1)
  else if c = '[' then (some ⟨.LBRACK, "[", line, col⟩, cs, line, col + 1)
  else if c = ']' then (some ⟨.RBRACK, "]", line, col⟩, cs, line, col + 1)
  else if c = ':' then (some ⟨.COLON, ":", line, col⟩, cs, line, col + 1)
  else if c = ',' then (some ⟨.COMMA, ",", line, col⟩, cs, line, col + 1)
  else if c = '|' then (some ⟨.PIPE, "|", line, col⟩, cs, line, col + 1)
  else if c = '@' then (some ⟨.AT, "@", line, col⟩, cs, line, col + 1)
  else if c = '-' then
    -- dead branch in the source: a lone dash is already captured by the
    -- identifier scan above; kept for faithfulness
    (some ⟨.DASH, "-", line, col⟩, cs, line, col + 1)
  else
    (some ⟨.OTHER, String.mk [c], line, col⟩, cs, line, col + 1)

/-- The main `while` loop of `tokenize`.  The loop consumes at least one
character per iteration, so it is presented with a step budget (`fuel`)
consumed once per iteration; exhausted fuel yields `[]`, which never has the
EOF-terminated shape, so `tokenizeLoop_shape` certifies that the budget
chosen by `tokenize` (the input length) is always sufficient — this is the
termination argument for the scanner.  The final `push('EOF', '<EOF>')`
appears when the characters run out. -/
def tokenizeLoop : Nat → List Char → Nat → Nat → List Token
  | _, [], line, col => [⟨.EOF, "<EOF>", line, col⟩]
  | 0, _ :: _, _, _ => []
  | fuel + 1, c :: cs, line, col =>
    match scanToken c cs line col with
    | (some t, rest, line2, col2) => t :: tokenizeLoop fuel rest line2 col2
    | (none, rest, line2, col2) => tokenizeLoop fuel rest line2 col2

/-- `tokenize(input)`: scan the whole input; a terminating EOF token is
always appended when the scan completes. -/
def tokenize (input : String) : List Token :=
  tokenizeLoop input.toList.length input.toList 1 1

/-! ## AST data model (`src/packages/core/src/ast/ast-types.ts`)

`DiagramType` is a union of string literals in TypeScript, but the parser
casts unchecked strings into it (`metadata['type'] as DiagramType`), so the
runtime type is `String`.  The `cardinality` member of `EdgeNode` and the
`visibility`/`memberType` members of `FieldDef` are never produced by the
parser under verification and are omitted. -/

inductive EdgeKind where
  | directed | undirected | bidirectional
  deriving DecidableEq, Repr

structure EdgeNode where
  fromId : String   -- `from` in the source (a reserved word in Lean)
  toId : String     -- `to` in the source
  kind : EdgeKind
  label : Option String
  raw : String
  deriving DecidableEq, Repr

inductive MetaValue where
  | str (s : String)
  | bool (b : Bool)
  deriving DecidableEq, Repr

structure FieldDef where
  name : String
  type : Option String
  constraints : List String
  raw : String
  deriving DecidableEq, Repr

inductive BlockNode where
  | entity (id : String) (attrs : List (String × String))
      (fields : Option (List FieldDef)) (raw : String)
  | group (name : String) (children : List BlockNode)
  deriving Repr

mutual

def BlockNode.decEq : (a b : BlockNode) → Decidable (a = b)
  | .entity i1 a1 f1 r1, .entity i2 a2 f2 r2 => by
    rw [BlockNode.entity.injEq]
    exact inferInstance
  | .entity _ _ _ _, .group _ _ => isFalse fun h => BlockNode.noConfusion h
  | .group _ _, .entity _ _ _ _ => isFalse fun h => BlockNode.noConfusion h
  | .group n1 c1, .group n2 c2 => by
    rw [BlockNode.group.injEq]
    have hc : Decidable (c1 = c2) := BlockNode.decEqList c1 c2
    exact instDecidableAnd

def BlockNode.decEqList : (xs ys : List BlockNode) → Decidable (xs = ys)
  | [], [] => isTrue rfl
  | [], _ :: _ => isFalse fun h => List.noConfusion h
  | _ :: _, [] => isFalse fun h => List.noConfusion h
  | x :: xs, y :: ys => by
    rw [List.cons.injEq]
    have h1 : Decidable (x = y) := BlockNode.decEq x y
    have h2 : Decidable (xs = ys) := BlockNode.decEqList xs ys
    exact instDecidableAnd

end

instance : DecidableEq BlockNode := BlockNode.decEq

structure DiagramAST where
  diagramType : String
  metadata : List (String × MetaValue)
  rootBlocks : List BlockNode
  edges : List EdgeNode
  rawLineCount : Nat
  deriving DecidableEq, Repr

/-- JavaScript object-key assignment `obj[k] = v`: replace in place or
append. -/
def setKey {α : Type} : List (String × α) → String → α → List (String × α)
  | [], k, v => [(k, v)]
  | (k2, v2) :: rest, k, v =>
    if k2 = k then (k, v) :: rest else (k2, v2) :: setKey rest k v

/-- JavaScript object-key lookup `obj[k]`. -/
def getKey {α : Type} : List (String × α) → String → Option α
  | [], _ => none
  | (k2, v) :: rest, k => if k2 = k then some v else getKey rest k

/-! ## Recursive-descent parser (`src/packages/core/src/parser/parser.ts`)

The mutable cursor `this.pos` becomes the remaining token suffix.  `peek`
past the end of the stream returns the stream's last token in the source;
on streams produced by `tokenize` that token is the EOF token, so the
exhausted suffix is represented by a default EOF token (the same default the
source uses for an empty stream). -/

def eofToken : Token := ⟨.EOF, "", 0, 0⟩

/-- `peek(n)` relative to the current cursor. -/
def peekT (ts : List Token) (n : Nat) : Token := (ts[n]?).getD eofToken

/-- `peek()` — the current token. -/
def headT (ts : List Token) : Token := peekT ts 0

/-- `next()`: the current token is consumed unless it is the EOF token. -/
def nextT (ts : List Token) : Token × List Token :=
  match ts with
  | [] => (eofToken, [])
  | t :: rest => if t.type = .EOF then (t, ts) else (t, rest)

/-- `looksLikeEntityDef` (parser.ts:153-169): skip newlines/comments past the
opening brace, then inspect the first two significant tokens. -/
def looksLikeEntityDefAux : List Token → Bool
  | [] => false
  | t :: rest =>
    if t.type = .EOF then false
    else if t.type = .RBRACE then false
    else if t.type = .NEWLINE ∨ t.type = .OTHER then looksLikeEntityDefAux rest
    else
      let t2 := peekT rest 0
      if t.type = .IDENT ∧ t2.type = .IDENT then true
      else if t.type = .IDENT ∧ t2.type = .STRING then true
      else if t.type = .IDENT ∧ (t2.type = .LBRACK ∨ t2.type = .LBRACE) then false
      else false

def looksLikeEntityDef (ts : List Token) : Bool :=
  looksLikeEntityDefAux (ts.drop 2)

/-- `looksLikeEdgeLine` (parser.ts:171-182): does the current line contain a
connector token before its newline? -/
def looksLikeEdgeLine : List Token → Bool
  | [] => false
  | t :: rest =>
    if t.type = .EOF then false
    else if t.type = .NEWLINE then false
    else if t.type = .GT ∨ t.type = .GT_LT ∨ t.type = .ARROW ∨ t.type = .DASH then true
    else looksLikeEdgeLine rest

/-- `collectUntil(endType)` (parser.ts:321-327); also used for the
consume-to-newline loops.  Stops at EOF without consuming it. -/
def collectUntil (endType : TokenType) : List Token → List Token × List Token
  | [] => ([], [])
  | t :: rest =>
    if t.type = .EOF ∨ t.type = endType then ([], t :: rest)
    else
      let r := collectUntil endType rest
      (t :: r.1, r.2)

/-- `parseMetadataLine` (parser.ts:184-196): one leading identifier as the
key, the space-joined remainder of the line as the value, the literal `true`
for an empty remainder. -/
def parseMetadataLine (ts : List Token) : Option (String × MetaValue) × List Token :=
  if (headT ts).type = .IDENT then
    let keyTok := headT ts
    let r := collectUntil .NEWLINE (nextT ts).2
    let ts2 := if (headT r.2).type = .NEWLINE then (nextT r.2).2 else r.2
    let value := strTrim (String.intercalate " " (r.1.map Token.text))
    if value = "" then (some (keyTok.text, .bool true), ts2)
    else (some (keyTok.text, .str value), ts2)
  else (none, ts)

/-- Skip to the next COLON token (the key/value separator scan inside
`tokensToKeyValues`); the colon itself is not dropped here. -/
def skipToColon : List Token → List Token
  | [] => []
  | t :: rest => if t.type = .COLON then t :: rest else skipToColon rest

/-- Collect the texts of the value tokens up to the next COMMA. -/
def collectValueParts : List Token → List String × List Token
  | [] => ([], [])
  | t :: rest =>
    if t.type = .COMMA then ([], t :: rest)
    else
      let r := collectValueParts rest
      (t.text :: r.1, r.2)

/-- `tokensToKeyValues` (parser.ts:329-357): parse `key: value, ...` pairs
from a bracketed attribute block.  Each outer iteration consumes at least
the key token, so a step budget of the list length is always sufficient. -/
def tokensToKeyValues : Nat → List Token → List (String × String) → List (String × String)
  | 0, _, out => out
  | _ + 1, [], out => out
  | fuel + 1, t :: rest, out =>
    if t.type = .NEWLINE ∨ t.type = .OTHER then tokensToKeyValues fuel rest out
    else if t.type = .IDENT then
      let afterColon :=
        match skipToColon rest with
        | c :: r2 => if c.type = .COLON then r2 else c :: r2
        | [] => []
      let r := collectValueParts afterColon
      let afterComma :=
        match r.2 with
        | c :: r3 => if c.type = .COMMA then r3 else c :: r3
        | [] => []
      tokensToKeyValues fuel afterComma
        (setKey out t.text (strTrim (String.intercalate " " r.1)))
    else tokensToKeyValues fuel rest out

/-! ### Edge-chain parsing (`parseEdgeLine`, parser.ts:359-469) -/

inductive EPKind where
  | node | connector | colon | other
  deriving DecidableEq, Repr

structure EdgePart where
  kind : EPKind
  text : String
  deriving DecidableEq, Repr

/-- Skip a bracketed attribute block inline in an edge line, tracking
nesting depth (parser.ts:370-380).  Entered just past the opening LBRACK
with depth 1; consumes up to and including the matching RBRACK. -/
def skipAttrBlock : Nat → List Token → List Token
  | _, [] => []
  | depth, t :: rest =>
    let d1 := if t.type = .LBRACK then depth + 1 else depth
    let d2 := if t.type = .RBRACK then d1 - 1 else d1
    if d2 > 0 then skipAttrBlock d2 rest else rest

/-- Reduce the tokens of one line to edge parts (parser.ts:366-393):
attribute blocks are skipped entirely, the rest are tagged.  Each iteration
consumes at least one token, so the list length is a sufficient budget. -/
def edgeParts : Nat → List Token → List EdgePart
  | 0, _ => []
  | _ + 1, [] => []
  | fuel + 1, t :: rest =>
    if t.type = .LBRACK then edgeParts fuel (skipAttrBlock 1 rest)
    else if t.type = .IDENT then ⟨.node, t.text⟩ :: edgeParts fuel rest
    else if t.type = .GT_LT then ⟨.connector, "<>"⟩ :: edgeParts fuel rest
    else if t.type = .GT then ⟨.connector, ">"⟩ :: edgeParts fuel rest
    else if t.type = .ARROW then ⟨.connector, t.text⟩ :: edgeParts fuel rest
    else if t.type = .DASH then ⟨.connector, "-"⟩ :: edgeParts fuel rest
    else if t.type = .COLON then ⟨.colon, ":"⟩ :: edgeParts fuel rest
    else if t.type = .COMMA then ⟨.other, ","⟩ :: edgeParts fuel rest
    else if t.type = .STRING then ⟨.other, "\"" ++ t.text ++ "\""⟩ :: edgeParts fuel rest
    else if t.type = .OTHER then ⟨.other, t.text⟩ :: edgeParts fuel rest
    else edgeParts fuel rest

inductive ChainEl where
  | nodes (ids : List String)
  | connector (text : String)
  deriving DecidableEq, Repr

/-- The comma-absorption loop (parser.ts:410-417): after a node, every
`, node` pair extends the current node group. -/
def nodeGroup (ns : List String) : List EdgePart → List String × List EdgePart
  | [] => (ns, [])
  | p :: rest =>
    if p.text = "," then
      match rest with
      | q :: rest2 =>
        if q.kind = .node then nodeGroup (ns ++ [q.text]) rest2
        else nodeGroup ns (q :: rest2)
      | [] => (ns, [])
    else (ns, p :: rest)

/-- Group the parts of a line into an alternating chain of node-groups and
connectors (parser.ts:404-427).  Each iteration consumes at least one part,
so the list length is a sufficient budget. -/
def chainOf : Nat → List EdgePart → List ChainEl
  | 0, _ => []
  | _ + 1, [] => []
  | fuel + 1, p :: rest =>
    if p.kind = .node then
      let r := nodeGroup [p.text] rest
      .nodes r.1 :: chainOf fuel r.2
    else if p.kind = .connector then
      .connector p.text :: chainOf fuel rest
    else chainOf fuel rest

/-- Connector text to edge kind (parser.ts:444-447): `<>` is bidirectional,
a single bare dash is undirected, every other connector is directed. -/
def connectorEdgeKind (c : String) : EdgeKind :=
  if c = "<>" then .bidirectional
  else if c = "-" then .undirected
  else .directed

/-- One connector step: the full cross-product of edges from every left id
to every right id, all carrying the line's label (parser.ts:449-460).
`raw` reproduces the template string, whose label suffix appears only for a
truthy (non-empty) label. -/
def crossEdges (label : Option String) (c : String) (froms tos : List String) :
    List EdgeNode :=
  froms.flatMap fun f =>
    tos.map fun t =>
      { fromId := f, toId := t, kind := connectorEdgeKind c, label := label,
        raw := f ++ " " ++ c ++ " " ++ t ++
          (match label with
           | some l => if l = "" then "" else " : " ++ l
           | none => "") }

/-- The left-to-right walk of the chain (parser.ts:429-466): node-groups
update the pending left side, each connector followed by a node-group emits
the cross-product and the right group becomes the new left side; a
connector not followed by a node-group is skipped. -/
def buildEdges (label : Option String) : Option (List String) → List ChainEl → List EdgeNode
  | _, [] => []
  | _, .nodes ns :: rest => buildEdges label (some ns) rest
  | last, .connector c :: .nodes ns2 :: rest2 =>
    crossEdges label c (last.getD []) ns2 ++ buildEdges label (some ns2) rest2
  | last, .connector _ :: rest => buildEdges label last rest

/-- The pure part of `parseEdgeLine`, applied to the tokens of one line:
label extraction at the first colon part, then the chain walk. -/
def parseEdgeLineParts (parts : List EdgePart) : List EdgeNode :=
  let colonIdx? := parts.findIdx? fun p => p.kind = EPKind.colon
  let label : Option String :=
    match colonIdx? with
    | some i => some (strTrim (String.intercalate " " ((parts.drop (i + 1)).map EdgePart.text)))
    | none => none
  let chainParts :=
    match colonIdx? with
    | some i => parts.take i
    | none => parts
  buildEdges label none (chainOf chainParts.length chainParts)

/-- `parseEdgeLine` (parser.ts:359-469): consume the tokens of the current
line (and its newline), then process them. -/
def parseEdgeLineS (ts : List Token) : List EdgeNode × List Token :=
  let r := collectUntil .NEWLINE ts
  let ts2 := if (headT r.2).type = .NEWLINE then (nextT r.2).2 else r.2
  (parseEdgeLineParts (edgeParts r.1.length r.1), ts2)

/-! ### Entity parsing (`parseEntityOrNode`, parser.ts:261-319) -/

/-- The collector for the remainder of one field row (parser.ts:290-296):
texts of all tokens up to the newline or closing brace, commas skipped. -/
def collectFieldRemaining : List Token → List String × List Token
  | [] => ([], [])
  | t :: rest =>
    if t.type = .EOF ∨ t.type = .NEWLINE ∨ t.type = .RBRACE then ([], t :: rest)
    else
      let r := collectFieldRemaining rest
      if t.type = .COMMA then (r.1, r.2) else (t.text :: r.1, r.2)

/-- `constraintText.split(/\s+/)` on an already-trimmed non-empty string:
whitespace runs separate the constraints. -/
def splitWs (s : String) : List String :=
  (splitCharsOn jsIsSpace s.data []).filter fun x => x ≠ ""

/-- The fields-body loop (parser.ts:277-312): one identifier as the field
name, optionally a second as its type, the space-joined remainder as
constraint text.  Each iteration consumes at least one token, so the list
length is a sufficient budget. -/
def parseFieldsF : Nat → List Token → List FieldDef → List FieldDef × List Token
  | 0, ts, fields => (fields, ts)
  | _ + 1, [], fields => (fields, [])
  | fuel + 1, t :: rest, fields =>
    if t.type = .EOF ∨ t.type = .RBRACE then (fields, t :: rest)
    else if t.type = .NEWLINE ∨ t.type = .OTHER then parseFieldsF fuel rest fields
    else if t.type = .IDENT then
      let hasType := (headT rest).type = .IDENT
      let typeTok? := if hasType then some (headT rest) else none
      let ts1 := if hasType then (nextT rest).2 else rest
      let r := collectFieldRemaining ts1
      let constraintText := strTrim (String.intercalate " " r.1)
      let constraints := if constraintText.length > 0 then splitWs constraintText else []
      let ts2 := if (headT r.2).type = .NEWLINE then (nextT r.2).2 else r.2
      let raw := strTrim (t.text ++ " " ++
        (match typeTok? with | some tk => tk.text | none => "") ++ " " ++
        constraintText)
      parseFieldsF fuel ts2
        (fields ++ [⟨t.text, typeTok?.map Token.text, constraints, raw⟩])
    else parseFieldsF fuel rest fields

/-- The optional bracketed attribute block of `parseEntityOrNode`
(parser.ts:267-273). -/
def entityAttrStep (ts1 : List Token) : List (String × String) × List Token :=
  if (headT ts1).type = .LBRACK then
    let r := collectUntil .RBRACK (nextT ts1).2
    (tokensToKeyValues r.1.length r.1 [],
      if (headT r.2).type = .RBRACK then (nextT r.2).2 else r.2)
  else ([], ts1)

/-- The optional braced fields body of `parseEntityOrNode`
(parser.ts:275-314). -/
def entityFieldsStep (ts2 : List Token) : Option (List FieldDef) × List Token :=
  if (headT ts2).type = .LBRACE then
    let start := (nextT ts2).2
    let r := parseFieldsF start.length start []
    (some r.1, if (headT r.2).type = .RBRACE then (nextT r.2).2 else r.2)
  else (none, ts2)

/-- `parseEntityOrNode` (parser.ts:261-319): the id, an optional bracketed
attribute block, an optional braced fields body, a trailing newline. -/
def parseEntityOrNodeS (ts : List Token) : BlockNode × List Token :=
  let idTok? := if (headT ts).type = .IDENT then some (headT ts) else none
  let id := match idTok? with | some t => t.text | none => "node"
  let ts1 := match idTok? with | some _ => (nextT ts).2 | none => ts
  let a := entityAttrStep ts1
  let f := entityFieldsStep a.2
  let ts4 := if (headT f.2).type = .NEWLINE then (nextT f.2).2 else f.2
  (.entity id a.1 f.1 id, ts4)

/-! ### Group parsing and the top-level loop (parser.ts:58-151, 198-259)

These loops nest through `parseGroup`, so they carry an explicit step
budget consumed once per call; `none` models a computation that would not
finish (it never arises for the budget chosen by the entry point, which is
the statement of the termination theorem for the parser). -/

mutual

/-- `parseGroup(explicitName?)` (parser.ts:198-259): resolve the name
(already consumed by the caller when `explicitName` is given), consume the
opening brace if present (parsing continues defensively otherwise), gather
children, consume the closing brace if present. -/
def parseGroupF : Nat → Option String → List Token → Option (BlockNode × List Token)
  | 0, _, _ => none
  | fuel + 1, explicitName, ts =>
    let (groupName, ts1) : String × List Token :=
      match explicitName with
      | some nm => (nm, ts)
      | none =>
        if (headT ts).type = TokenType.IDENT then ((headT ts).text, (nextT ts).2)
        else ("group", ts)
    let ts2 := if (headT ts1).type = TokenType.LBRACE then (nextT ts1).2 else ts1
    match groupBodyF fuel ts2 with
    | none => none
    | some (children, ts3) =>
      some (BlockNode.group groupName children,
        if (headT ts3).type = TokenType.RBRACE then (nextT ts3).2 else ts3)

/-- The child-gathering loop of `parseGroup` (parser.ts:215-255): nested
groups and entities, lone identifier children with the rest of their line
skipped, and edge lines that are parsed but discarded. -/
def groupBodyF : Nat → List Token → Option (List BlockNode × List Token)
  | 0, _ => none
  | fuel + 1, ts =>
    if (headT ts).type = .EOF ∨ (headT ts).type = .RBRACE then some ([], ts)
    else if (headT ts).type = .NEWLINE ∨ (headT ts).type = .OTHER then
      groupBodyF fuel (nextT ts).2
    else if (headT ts).type = .IDENT ∧ (peekT ts 1).type = .LBRACE then
      if looksLikeEntityDef ts then
        let r := parseEntityOrNodeS ts
        (groupBodyF fuel r.2).map fun b => (r.1 :: b.1, b.2)
      else
        match parseGroupF fuel none ts with
        | none => none
        | some (g, ts2) => (groupBodyF fuel ts2).map fun b => (g :: b.1, b.2)
    else if (headT ts).type = .IDENT then
      if (peekT ts 1).type = .LBRACK then
        let r := parseEntityOrNodeS ts
        (groupBodyF fuel r.2).map fun b => (r.1 :: b.1, b.2)
      else
        -- lone identifier child; the rest of its line is skipped
        let idTok := headT ts
        let r := collectUntil .NEWLINE (nextT ts).2
        (groupBodyF fuel r.2).map fun b =>
          ((BlockNode.entity idTok.text [] none idTok.text) :: b.1, b.2)
    else if looksLikeEdgeLine ts then
      -- consume edges inside the group; the parsed edges are discarded
      let r := parseEdgeLineS ts
      groupBodyF fuel r.2
    else
      groupBodyF fuel (nextT ts).2

end

/-- The top-level dispatch loop of `Parser.parse` (parser.ts:64-138),
accumulating metadata, root blocks and edges. -/
def parseLoopF : Nat → List (String × MetaValue) → List BlockNode → List EdgeNode →
    List Token → Option (List (String × MetaValue) × List BlockNode × List EdgeNode)
  | 0, _, _, _, _ => none
  | fuel + 1, metadata, rootBlocks, edges, ts =>
    if (headT ts).type = .EOF then some (metadata, rootBlocks, edges)
    else
      let t := headT ts
      if t.type = .NEWLINE ∨ t.type = .OTHER then
        parseLoopF fuel metadata rootBlocks edges (nextT ts).2
      else if t.type = .IDENT then
        if strToLower t.text = "group" ∧ (peekT ts 1).type = .IDENT ∧
            (peekT ts 2).type = .LBRACE then
          -- "group NAME {": consume the keyword, expect the name
          let ts1 := (nextT ts).2
          let nameTok? := if (headT ts1).type = .IDENT then some (headT ts1) else none
          let ts2 := match nameTok? with | some _ => (nextT ts1).2 | none => ts1
          match parseGroupF (2 * ts2.length + 1) (nameTok?.map Token.text) ts2 with
          | none => none
          | some (g, ts3) => parseLoopF fuel metadata (rootBlocks ++ [g]) edges ts3
        else if (peekT ts 1).type = .LBRACE then
          if looksLikeEntityDef ts then
            let r := parseEntityOrNodeS ts
            parseLoopF fuel metadata (rootBlocks ++ [r.1]) edges r.2
          else
            match parseGroupF (2 * ts.length + 1) none ts with
            | none => none
            | some (g, ts2) => parseLoopF fuel metadata (rootBlocks ++ [g]) edges ts2
        else if (peekT ts 1).type = .LBRACK then
          let r := parseEntityOrNodeS ts
          parseLoopF fuel metadata (rootBlocks ++ [r.1]) edges r.2
        else if looksLikeEdgeLine ts then
          let r := parseEdgeLineS ts
          parseLoopF fuel metadata rootBlocks (edges ++ r.1) r.2
        else
          match parseMetadataLine ts with
          | (some kv, ts2) => parseLoopF fuel (setKey metadata kv.1 kv.2) rootBlocks edges ts2
          | (none, ts2) =>
            -- lone identifier fallback (parser.ts:116-126); unreachable in
            -- fact, since the metadata parse above always succeeds when the
            -- current token is an identifier
            let idTok := headT ts2
            let r := collectUntil .NEWLINE (nextT ts2).2
            parseLoopF fuel metadata
              (rootBlocks ++ [.entity idTok.text [] none idTok.text]) edges r.2
      else if looksLikeEdgeLine ts then
        let r := parseEdgeLineS ts
        parseLoopF fuel metadata rootBlocks (edges ++ r.1) r.2
      else
        parseLoopF fuel metadata rootBlocks edges (nextT ts).2

/-- `detectDiagramType` (parser.ts:471-518): one pass over the raw tokens
accumulating signals, then a fixed-priority cascade. -/
def detectFlagsLoop : List Token → Bool → Bool → Bool → Bool → Bool →
    Bool × Bool × Bool × Bool × Bool
  | [], sawArrow, sawBi, sawEF, sawCK, sawSK => (sawArrow, sawBi, sawEF, sawCK, sawSK)
  | t :: rest, sawArrow, sawBi, sawEF, sawCK, sawSK =>
    let sawArrow := sawArrow || t.type == .ARROW || t.type == .GT || t.type == .DASH
    let sawBi := sawBi || t.type == .GT_LT
    let sawEF := sawEF || (t.type == .IDENT &&
      (match rest[0]? with | some x => x.type == .IDENT | none => false) &&
      (match rest[1]? with
       | some y => y.type == .RBRACE || y.type == .STRING
       | none => false))
    let sawCK := sawCK || (t.type == .IDENT && strToLower t.text == "class")
    let sawSK := sawSK || (t.type == .IDENT &&
      (strToLower t.text == "participant" || strToLower t.text == "activate" ||
       strToLower t.text == "deactivate" || strToLower t.text == "note" ||
       strToLower t.text == "alt" || strToLower t.text == "loop"))
    detectFlagsLoop rest sawArrow sawBi sawEF sawCK sawSK

def detectDiagramType (tokens : List Token) : String :=
  let fl := detectFlagsLoop tokens false false false false false
  if fl.2.2.2.2 then "sequence"
  else if fl.2.2.2.1 then "class"
  else if fl.2.2.1 then "er"
  else if fl.2.1 then "graph"
  else if fl.1 then "graph"
  else "unknown"

/-- `Parser.parse` (parser.ts:58-151) for a full token stream: run the
dispatch loop, then resolve the diagram type (token-based detection when no
hint forced it), and assemble the document.  The step budget
`2 * tokens.length + 3` is sufficient for every EOF-terminated stream (the
termination theorem below); `none` would mean the parser did not finish. -/
def parseTokens (tokens : List Token) (diagHint : Option String) : Option DiagramAST :=
  let lineCount := tokens.foldl (fun acc t => max acc t.line) 0
  match parseLoopF (2 * tokens.length + 3) [] [] [] tokens with
  | none => none
  | some (md, rb, eg) =>
    let dt0 := diagHint.getD "unknown"
    let dt := if dt0 = "unknown" then detectDiagramType tokens else dt0
    some ⟨dt, md, rb, eg, lineCount⟩

/-- `parseEraserDSL(input, diagHint?)` (parser.ts:521-525): tokenize, then
parse. -/
def parseEraserDSLHint (input : String) (diagHint : Option String) : Option DiagramAST :=
  parseTokens (tokenize input) diagHint

/-- `parseEraserDSL(input)` with no diagram-type hint. -/
def parseEraserDSL (input : String) : Option DiagramAST :=
  parseEraserDSLHint input none

/-! ## AST-based diagram-type classifier (`src/unnamed/part_003`,
`Parser.inferDiagramType`, lines 141-225) -/

/-- JavaScript truthiness of a metadata value (`metadata[k] && ...`): a
string is truthy when non-empty, a boolean when `true`. -/
def truthyMeta : Option MetaValue → Bool
  | some (.str s) => s ≠ ""
  | some (.bool b) => b
  | none => false

/-- Case-insensitive containment test for one keyword of the control-flow
regex `/activate|deactivate|note|alt|loop|over|return|destroy|ref/i` (the
subject string is already lowercased at the call site). -/
def strContains (s pat : String) : Bool := subOccurs pat.data s.data

def labelHasSeqKeyword (l : String) : Bool :=
  strContains l "activate" || strContains l "deactivate" || strContains l "note" ||
  strContains l "alt" || strContains l "loop" || strContains l "over" ||
  strContains l "return" || strContains l "destroy" || strContains l "ref"

mutual

/-- The `visit` tree walk of `inferDiagramType`: accumulates
`(hasFields, hasActorStyleAttrs, hasParticipantLikeNode)` for one block. -/
def visitBlock : BlockNode → Bool × Bool × Bool
  | .entity id attrs fields _ =>
    let hasFields := match fields with | some fs => decide (fs.length > 0) | none => false
    let keys := attrs.map fun kv => strToLower kv.1
    let actorStyle := keys.any fun k =>
      k == "icon" || k == "color" || k == "label" || k == "shape"
    let attrParticipant :=
      (match getKey attrs "participant" with | some v => v ≠ "" | none => false) ||
      (match getKey attrs "actor" with | some v => v ≠ "" | none => false)
    let idl := strToLower id
    let nameHint :=
      idl == "participant" || idl == "actor" || idl == "user" ||
      idl == "client" || idl == "server" || idl == "database"
    (hasFields, actorStyle, attrParticipant || nameHint)
  | .group name children =>
    let r := visitBlocks children
    let nl := strToLower name
    let nameHint :=
      nl == "participant" || nl == "actor" || nl == "boundary" ||
      nl == "control" || nl == "entity" || nl == "database"
    (r.1, r.2.1, nameHint || r.2.2)

def visitBlocks : List BlockNode → Bool × Bool × Bool
  | [] => (false, false, false)
  | b :: rest =>
    let a := visitBlock b
    let r := visitBlocks rest
    (a.1 || r.1, a.2.1 || r.2.1, a.2.2 || r.2.2)

end

/-- The decision cascade of `inferDiagramType` after the explicit-type
check: sequence signals first, then the styled-nodes secondary signal, then
field presence, then edge presence, otherwise unknown. -/
def inferDiagramTypeCore (rootBlocks : List BlockNode) (edges : List EdgeNode)
    (metadata : List (String × MetaValue)) : String :=
  let hasAutoNumber := (getKey metadata "autoNumber").isSome
  let metaActorStyle := truthyMeta (getKey metadata "title") ||
    truthyMeta (getKey metadata "colorMode") || truthyMeta (getKey metadata "styleMode")
  let hasDirectedEdges := edges.any fun e =>
    e.kind == EdgeKind.directed || e.kind == EdgeKind.bidirectional
  let hasSequenceKeywordInLabel := edges.any fun e =>
    match e.label with
    | some l => if l = "" then false else labelHasSeqKeyword (strToLower l)
    | none => false
  let v := visitBlocks rootBlocks
  let hasFields := v.1
  let hasActorStyleAttrs := metaActorStyle || v.2.1
  let hasParticipantLikeNode := v.2.2
  if hasAutoNumber || hasSequenceKeywordInLabel || hasParticipantLikeNode then "sequence"
  else if hasActorStyleAttrs && hasDirectedEdges && decide (edges.length ≥ 3) then "sequence"
  else if hasFields then "er"
  else if edges.length > 0 then "graph"
  else "unknown"

/-- `inferDiagramType` (part_003:141-225): explicit (truthy, string-typed)
`type` metadata always wins; otherwise the cascade decides. -/
def inferDiagramType (rootBlocks : List BlockNode) (edges : List EdgeNode)
    (metadata : List (String × MetaValue)) : String :=
  match getKey metadata "type" with
  | some (MetaValue.str s) =>
    if s = "" then inferDiagramTypeCore rootBlocks edges metadata else s
  | _ => inferDiagramTypeCore rootBlocks edges metadata

/-! ## Layout data model (`src/.../types/layout-types`)

Coordinates are JavaScript numbers; the operations under verification
(`min`, `max`, `+`, `-`, halving) are exact, modelled over `Rat`. -/

structure Rect where
  x : Rat
  y : Rat
  width : Rat
  height : Rat
  deriving DecidableEq, Repr

structure Point where
  x : Rat
  y : Rat
  deriving DecidableEq, Repr

structure GroupLayout where
  name : String
  ast : BlockNode
  children : List String
  padding : Rat
  bounds : Rect
  deriving DecidableEq, Repr

structure RoutedEdge where
  id : String
  fromId : String
  toId : String
  kind : EdgeKind
  label : Option String
  points : List Point
  deriving DecidableEq, Repr

/-! ## Group layout (`src/packages/viewer/src/types/viewer-types.ts:58-99`,
`computeGroupLayout`)

This is the snapshot with the zero-children guard; the same function in
`src/unnamed/part_000` lacks the guard.  `Math.min(...)`/`Math.max(...)` are
only ever applied to non-empty lists behind the guard. -/

def blockIsEntity : BlockNode → Bool
  | .entity _ _ _ _ => true
  | .group _ _ => false

/-- `entityChildren.map(c => c.id)`. -/
def entityIdsOf (children : List BlockNode) : List String :=
  children.filterMap fun c =>
    match c with
    | .entity id _ _ _ => some id
    | .group _ _ => none

/-- `entityChildren.map(c => nodeLayouts[c.id]?.bounds).filter(Boolean)`. -/
def childBoundsOf (nls : List (String × Rect)) (children : List BlockNode) : List Rect :=
  (entityIdsOf children).filterMap fun id => getKey nls id

/-- `Math.min` over a non-empty list (the guarded code never applies it to
an empty one). -/
def ratMin : List Rat → Rat
  | [] => 0
  | x :: rest => rest.foldl min x

def ratMax : List Rat → Rat
  | [] => 0
  | x :: rest => rest.foldl max x

/-- The padded union of the resolved child bounds: the enclosing rectangle
expanded by 32 on every side. -/
def groupUnionBounds (cbs : List Rect) : Rect :=
  let minX := ratMin (cbs.map fun b => b.x) - 32
  let minY := ratMin (cbs.map fun b => b.y) - 32
  let maxX := ratMax (cbs.map fun b => b.x + b.width) + 32
  let maxY := ratMax (cbs.map fun b => b.y + b.height) + 32
  ⟨minX, minY, maxX - minX, maxY - minY⟩

def GROUP_PADDING : Rat := 40

/-- The `for (const g of groups)` loop with its `out[g.name] = ...`
assignments (entities never occur in the `groups` argument and are
skipped). -/
def computeGroupLayoutAux (nls : List (String × Rect)) :
    List (String × GroupLayout) → List BlockNode → List (String × GroupLayout)
  | out, [] => out
  | out, g :: rest =>
    match g with
    | .entity _ _ _ _ => computeGroupLayoutAux nls out rest
    | .group name children =>
      let cbs := childBoundsOf nls children
      if cbs.isEmpty then computeGroupLayoutAux nls out rest
      else
        computeGroupLayoutAux nls
          (setKey out name
            ⟨name, .group name children, entityIdsOf children, GROUP_PADDING,
              groupUnionBounds cbs⟩) rest

def computeGroupLayout (groups : List BlockNode) (nls : List (String × Rect)) :
    List (String × GroupLayout) :=
  computeGroupLayoutAux nls [] groups

/-! ## Graph layout registration (`src/packages/viewer/src/layout/dagre-layout.ts:108-199`,
`computeGraphLayout`)

The rank-based placement primitive (dagre) is the opaque external
collaborator of the specification: it assigns positions to exactly the
registered nodes and clusters and returns bend points for exactly the
registered edges.  What is modelled here is the registration phase, which
determines membership: which ids have a `NodeLayout`/`GroupLayout` in the
result and which edges survive. -/

mutual

/-- The `visit` walk: entities are registered as nodes, groups as cluster
nodes, with `g.setNode` overwrite semantics. -/
def registerBlock : List (String × Bool) → BlockNode → List (String × Bool)
  | reg, .entity id _ _ _ => setKey reg id false
  | reg, .group name children => registerBlocks (setKey reg name true) children

def registerBlocks : List (String × Bool) → List BlockNode → List (String × Bool)
  | reg, [] => reg
  | reg, b :: rest => registerBlocks (registerBlock reg b) rest

end

mutual

/-- The entity ids recorded in `nodeMap` during `visit` (groups are not in
`nodeMap`). -/
def nodeMapIds : List String → BlockNode → List String
  | acc, .entity id _ _ _ => acc ++ [id]
  | acc, .group _ children => nodeMapIdsList acc children

def nodeMapIdsList : List String → List BlockNode → List String
  | acc, [] => acc
  | acc, b :: rest => nodeMapIdsList (nodeMapIds acc b) rest

end

/-- `resolveNodeId` (dagre-layout.ts:124-131): a raw id that is not a known
node but has a dotted sub-path is joined back to its owning entity when that
parent is known; otherwise the raw id is returned unchanged. -/
def resolveNodeId (ids : List String) (rawId : String) : String :=
  if rawId ∈ ids then rawId
  else if rawId.data.contains '.' then
    let parent := String.mk (rawId.data.takeWhile fun c => c ≠ '.')
    if parent ∈ ids then parent else rawId
  else rawId

/-- Edge registration (dagre-layout.ts:149-162): endpoints are resolved and
the edge is added only when both resolved endpoints are registered;
otherwise it is silently dropped. -/
def graphRegEdges (reg : List (String × Bool)) (ids : List String)
    (edges : List EdgeNode) : List (String × String × EdgeNode) :=
  edges.filterMap fun e =>
    let u := resolveNodeId ids e.fromId
    let v := resolveNodeId ids e.toId
    if (getKey reg u).isSome ∧ (getKey reg v).isSome then some (u, v, e) else none

/-- The ids that receive a `NodeLayout` in `computeGraphLayout`'s result:
the registered non-cluster nodes (dagre-layout.ts:170-180). -/
def graphLayoutNodeIds (ast : DiagramAST) : List String :=
  ((registerBlocks [] ast.rootBlocks).filter fun kv => !kv.2).map fun kv => kv.1

/-- The ids that receive a `GroupLayout` in the result: the cluster nodes. -/
def graphLayoutGroupIds (ast : DiagramAST) : List String :=
  ((registerBlocks [] ast.rootBlocks).filter fun kv => kv.2).map fun kv => kv.1

/-- The edges of `computeGraphLayout`'s result, as resolved endpoint pairs. -/
def graphLayoutEdges (ast : DiagramAST) : List (String × String × EdgeNode) :=
  graphRegEdges (registerBlocks [] ast.rootBlocks) (nodeMapIdsList [] ast.rootBlocks)
    ast.edges

/-! ## Fallback edge routing (`src/packages/core/src/layout/edge-routing.ts`,
`computeEdgeRouting`)

`nodes[e.from]` / `nodes[e.to]` are indexed without a guard and their
`.bounds` is read immediately: a missing endpoint is a TypeError, modelled
as `none`. -/

def computeEdgeRoutingAux (nodes : List (String × Rect)) :
    Nat → List EdgeNode → Option (List RoutedEdge)
  | _, [] => some []
  | i, e :: rest =>
    match getKey nodes e.fromId, getKey nodes e.toId with
    | some fb, some tb =>
      (computeEdgeRoutingAux nodes (i + 1) rest).map fun others =>
        ⟨"edge_" ++ toString i, e.fromId, e.toId, e.kind, e.label,
          [⟨fb.x + fb.width, fb.y + fb.height / 2⟩,
           ⟨tb.x, tb.y + tb.height / 2⟩]⟩ :: others
    | _, _ => none

def computeEdgeRouting (edges : List EdgeNode) (nodes : List (String × Rect)) :
    Option (List RoutedEdge) :=
  computeEdgeRoutingAux nodes 0 edges

/-! ## Rounded edge paths (`src/packages/viewer/src/layout/layout-engine.ts:194-271`,
`getRoundedPath` / `generateRoundedCornerPath`)

The SVG path string is modelled as a list of path commands.  `Math.sqrt` is
an external numeric primitive and is passed as a function parameter.  The
source's two preliminary string-building loops compute strings that are
discarded before the final `return generateRoundedCornerPath(points, radius)`
and are omitted. -/

inductive PathCmd where
  | move (p : Point)
  | line (p : Point)
  | quad (c p : Point)
  deriving DecidableEq, Repr

/-- The interior-corner loop of `generateRoundedCornerPath`: for each
interior point, back off along both adjacent segments by the clamped radius
and connect with a quadratic curve through the corner. -/
def roundedCorners (sqrt : Rat → Rat) (r : Rat) : List Point → List PathCmd
  | p0 :: p1 :: p2 :: rest =>
    let v1 : Point := ⟨p0.x - p1.x, p0.y - p1.y⟩
    let v2 : Point := ⟨p2.x - p1.x, p2.y - p1.y⟩
    let len1 := sqrt (v1.x * v1.x + v1.y * v1.y)
    let len2 := sqrt (v2.x * v2.x + v2.y * v2.y)
    let effectiveR := min r (min (len1 / 2) (len2 / 2))
    let off1 : Point := ⟨p1.x + v1.x / len1 * effectiveR, p1.y + v1.y / len1 * effectiveR⟩
    let off2 : Point := ⟨p1.x + v2.x / len2 * effectiveR, p1.y + v2.y / len2 * effectiveR⟩
    .line off1 :: .quad p1 off2 :: roundedCorners sqrt r (p1 :: p2 :: rest)
  | _ => []

/-- `generateRoundedCornerPath(points, r)`: `points[0]` is read
unconditionally, so an empty list faults. -/
def generateRoundedCornerPath (sqrt : Rat → Rat) (points : List Point) (r : Rat) :
    Option (List PathCmd) :=
  match points with
  | [] => none
  | p0 :: _ =>
    some (.move p0 :: (roundedCorners sqrt r points ++
      [.line ((points.getLast?).getD p0)]))

/-- `getRoundedPath(points, radius)` (layout-engine.ts:194-241): fewer than
three points short-circuits to `M points[0] L points[1]` — which reads
`points[1]` unconditionally, so zero or one point faults (`none`). -/
def getRoundedPath (sqrt : Rat → Rat) (points : List Point) (radius : Rat) :
    Option (List PathCmd) :=
  if points.length < 3 then
    match points with
    | p0 :: p1 :: _ => some [.move p0, .line p1]
    | _ => none
  else generateRoundedCornerPath sqrt points radius

/-! ## Spec-side classifier (C9): the decision procedure as the spec words
it — flatten the block tree, test each signal by an `any` over the
flattened list, then decide by the fixed priority with explicit `type`
metadata winning. -/

mutual

def flattenBlock : BlockNode → List BlockNode
  | .entity id attrs fields raw => [.entity id attrs fields raw]
  | .group name children => BlockNode.group name children :: flattenBlocks children

def flattenBlocks : List BlockNode → List BlockNode
  | [] => []
  | b :: rest => flattenBlock b ++ flattenBlocks rest

end

/-- Spec signal: an entity with at least one parsed field. -/
def specFieldsSignal : BlockNode → Bool
  | .entity _ _ (some fs) _ => decide (fs.length > 0)
  | _ => false

/-- Spec signal: an entity styled by an icon/color/label/shape attribute
key (case-insensitive). -/
def specStyleSignal : BlockNode → Bool
  | .entity _ attrs _ _ =>
    (attrs.map fun kv => strToLower kv.1).any fun k =>
      k == "icon" || k == "color" || k == "label" || k == "shape"
  | _ => false

/-- Spec signal: participant-like naming — a truthy participant/actor
attribute, or an entity id / group name drawn from the role vocabulary. -/
def specParticipantSignal : BlockNode → Bool
  | .entity id attrs _ _ =>
    ((match getKey attrs "participant" with | some v => v ≠ "" | none => false) ||
     (match getKey attrs "actor" with | some v => v ≠ "" | none => false)) ||
    (strToLower id == "participant" || strToLower id == "actor" ||
     strToLower id == "user" || strToLower id == "client" ||
     strToLower id == "server" || strToLower id == "database")
  | .group name _ =>
    strToLower name == "participant" || strToLower name == "actor" ||
    strToLower name == "boundary" || strToLower name == "control" ||
    strToLower name == "entity" || strToLower name == "database"

/-- The classifier as the claim words it: the secondary sequence trigger is
"styled nodes" — the tree-walk attribute signal alone — combined with
directed edges and a minimum edge count.  No metadata enters the
styled-nodes signal here; the claim and the spec enumerate only tree-walk
signals for it. -/
def classifierSpec (rootBlocks : List BlockNode) (edges : List EdgeNode)
    (metadata : List (String × MetaValue)) : String :=
  let blocks := flattenBlocks rootBlocks
  let seqSignal := (getKey metadata "autoNumber").isSome ||
    (edges.any fun e =>
      match e.label with
      | some l => if l = "" then false else labelHasSeqKeyword (strToLower l)
      | none => false) ||
    blocks.any specParticipantSignal
  let styledNodes := blocks.any specStyleSignal
  let hasDirectedEdges := edges.any fun e =>
    e.kind == EdgeKind.directed || e.kind == EdgeKind.bidirectional
  let result :=
    if seqSignal then "sequence"
    else if styledNodes && hasDirectedEdges && decide (edges.length ≥ 3) then "sequence"
    else if blocks.any specFieldsSignal then "er"
    else if edges.length > 0 then "graph"
    else "unknown"
  match getKey metadata "type" with
  | some (MetaValue.str s) => if s = "" then result else s
  | _ => result

/-- The classifier cascade as amended: identical to `classifierSpec` except
that the styled-nodes signal additionally fires on truthy
`title`/`colorMode`/`styleMode` metadata, which is what the code's style
flag (part_003:160) actually does. -/
def classifierSpecAmended (rootBlocks : List BlockNode) (edges : List EdgeNode)
    (metadata : List (String × MetaValue)) : String :=
  let blocks := flattenBlocks rootBlocks
  let seqSignal := (getKey metadata "autoNumber").isSome ||
    (edges.any fun e =>
      match e.label with
      | some l => if l = "" then false else labelHasSeqKeyword (strToLower l)
      | none => false) ||
    blocks.any specParticipantSignal
  let styledNodes := truthyMeta (getKey metadata "title") ||
    truthyMeta (getKey metadata "colorMode") ||
    truthyMeta (getKey metadata "styleMode") ||
    blocks.any specStyleSignal
  let hasDirectedEdges := edges.any fun e =>
    e.kind == EdgeKind.directed || e.kind == EdgeKind.bidirectional
  let result :=
    if seqSignal then "sequence"
    else if styledNodes && hasDirectedEdges && decide (edges.length ≥ 3) then "sequence"
    else if blocks.any specFieldsSignal then "er"
    else if edges.length > 0 then "graph"
    else "unknown"
  match getKey metadata "type" with
  | some (MetaValue.str s) => if s = "" then result else s
  | _ => result

theorem scanStringBody_rest_le (q : Char) (cs : List Char) (e : Bool)
    (acc : List Char) : (scanStringBody q cs e acc).2.2.length ≤ cs.length := by
  induction cs generalizing e acc with
  | nil => simp [scanStringBody]
  | cons c rest ih =>
    simp only [scanStringBody]
    split
    · exact Nat.le_trans (ih true acc) (Nat.le_succ _)
    · split
      · simp
      · exact Nat.le_trans (ih false (acc ++ [c])) (Nat.le_succ _)

theorem tailLenLe {α : Type} (l : List α) : l.tail.length ≤ l.length := by
  cases l <;> simp

theorem dropWhileLenLe {α : Type} (p : α → Bool) (l : List α) :
    (l.dropWhile p).length ≤ l.length := by
  induction l with
  | nil => simp
  | cons a l ih =>
    simp only [List.dropWhile]
    split
    · exact Nat.le_trans ih (Nat.le_succ _)
    · exact Nat.le_refl _

theorem tailTailLenLe {α : Type} (l : List α) : l.tail.tail.length ≤ l.length :=
  Nat.le_trans (tailLenLe _) (tailLenLe _)

theorem stringRestLenLe (q : Char) (cs : List Char) :
    (if (scanStringBody q cs false []).2.2.head? = some q
     then (scanStringBody q cs false []).2.2.tail
     else (scanStringBody q cs false []).2.2).length ≤ cs.length := by
  split
  · exact Nat.le_trans (tailLenLe _) (scanStringBody_rest_le _ _ _ _)
  · exact scanStringBody_rest_le _ _ _ _

theorem jsIsSpaceEval :
    jsIsSpace '/' = false ∧ jsIsSpace '-' = false ∧ jsIsSpace '<' = false ∧
    jsIsSpace '>' = false ∧ jsIsSpace '"' = false ∧ jsIsSpace '\'' = false ∧
    jsIsSpace '{' = false ∧ jsIsSpace '}' = false ∧ jsIsSpace '[' = false ∧
    jsIsSpace ']' = false ∧ jsIsSpace ':' = false ∧ jsIsSpace ',' = false ∧
    jsIsSpace '|' = false ∧ jsIsSpace '@' = false := by decide

theorem alphaNumEval :
    isAlphaNumUnderscore '/' = false ∧ isAlphaNumUnderscore '-' = true ∧
    isAlphaNumUnderscore '<' = false ∧ isAlphaNumUnderscore '>' = false ∧
    isAlphaNumUnderscore '{' = false ∧ isAlphaNumUnderscore '}' = false ∧
    isAlphaNumUnderscore '[' = false ∧ isAlphaNumUnderscore ']' = false ∧
    isAlphaNumUnderscore ':' = false ∧ isAlphaNumUnderscore ',' = false ∧
    isAlphaNumUnderscore '|' = false ∧ isAlphaNumUnderscore '@' = false ∧
    isAlphaNumUnderscore '"' = false ∧ isAlphaNumUnderscore '\'' = false := by decide

set_option maxHeartbeats 2000000 in
/-- The two step invariants of the scanner, established together by walking
the branch ladder once: (a) a step never consumes less than the head
character, so the remaining input shrinks; (b) no step emits a `DASH`
token — the only branch constructing one sits below the identifier-class
test and the dash belongs to the identifier class, so a lone dash is scanned
as an identifier instead. -/
theorem scanToken_spec (c : Char) (cs : List Char) (line col : Nat) :
    (scanToken c cs line col).2.1.length ≤ cs.length ∧
    ((scanToken c cs line col).1.all fun t => t.type != TokenType.DASH) = true := by
  by_cases h1 : c = '\n'
  · refine ⟨?_, ?_⟩ <;>
      simp_all [scanToken, Option.all, jsIsSpaceEval, alphaNumEval,
        tailTailLenLe, dropWhileLenLe, tailLenLe, stringRestLenLe] <;>
      omega
  by_cases h2 : jsIsSpace c = true
  · refine ⟨?_, ?_⟩ <;>
      simp_all [scanToken, Option.all, jsIsSpaceEval, alphaNumEval,
        tailTailLenLe, dropWhileLenLe, tailLenLe, stringRestLenLe] <;>
      omega
  by_cases h3 : c = '/' ∧ cs.head? = some '/'
  · refine ⟨?_, ?_⟩ <;>
      simp_all [scanToken, Option.all, jsIsSpaceEval, alphaNumEval,
        tailTailLenLe, dropWhileLenLe, tailLenLe, stringRestLenLe] <;>
      omega
  by_cases h4 : (c = '-' ∧ cs.head? = some '-') ∧ cs.tail.head? = some '>'
  · refine ⟨?_, ?_⟩ <;>
      simp_all [scanToken, Option.all, jsIsSpaceEval, alphaNumEval,
        tailTailLenLe, dropWhileLenLe, tailLenLe, stringRestLenLe] <;>
      omega
  by_cases h5 : c = '-' ∧ cs.head? = some '>'
  · refine ⟨?_, ?_⟩ <;>
      simp_all [scanToken, Option.all, jsIsSpaceEval, alphaNumEval,
        tailTailLenLe, dropWhileLenLe, tailLenLe, stringRestLenLe] <;>
      omega
  by_cases h6 : c = '<' ∧ cs.head? = some '>'
  · refine ⟨?_, ?_⟩ <;>
      simp_all [scanToken, Option.all, jsIsSpaceEval, alphaNumEval,
        tailTailLenLe, dropWhileLenLe, tailLenLe, stringRestLenLe] <;>
      omega
  by_cases h7 : c = '<'
  · refine ⟨?_, ?_⟩ <;>
      simp_all [scanToken, Option.all, jsIsSpaceEval, alphaNumEval,
        tailTailLenLe, dropWhileLenLe, tailLenLe, stringRestLenLe] <;>
      omega
  by_cases h8 : c = '>'
  · refine ⟨?_, ?_⟩ <;>
      simp_all [scanToken, Option.all, jsIsSpaceEval, alphaNumEval,
        tailTailLenLe, dropWhileLenLe, tailLenLe, stringRestLenLe] <;>
      omega
  by_cases h9 : c = '"' ∨ c = '\''
  · rcases h9 with hq | hq <;> subst hq <;> refine ⟨?_, ?_⟩ <;>
      simp_all [scanToken, Option.all, jsIsSpaceEval, alphaNumEval,
        tailTailLenLe, dropWhileLenLe, tailLenLe, stringRestLenLe] <;>
      omega
  by_cases h10 : isAlphaNumUnderscore c = true
  · have b3 : ¬((decide (c = '/') && decide (cs.head? = some '/')) = true) := by
      simpa using h3
    have b4 : ¬((decide (c = '-') && decide (cs.head? = some '-') &&
        decide (cs.tail.head? = some '>')) = true) := by simpa using h4
    have b5 : ¬((decide (c = '-') && decide (cs.head? = some '>')) = true) := by
      simpa using h5
    have b6 : ¬((decide (c = '<') && decide (cs.head? = some '>')) = true) := by
      simpa using h6
    have b9 : ¬((decide (c = '"') || decide (c = '\'')) = true) := by simpa using h9
    unfold scanToken
    rw [if_neg h1, if_neg h2, if_neg b3, if_neg b4, if_neg b5, if_neg b6,
        if_neg h7, if_neg h8, if_neg b9, if_pos h10]
    exact ⟨dropWhileLenLe _ _, by simp [Option.all]⟩
  by_cases h11 : c = '{'
  · refine ⟨?_, ?_⟩ <;>
      simp_all [scanToken, Option.all, jsIsSpaceEval, alphaNumEval,
        tailTailLenLe, dropWhileLenLe, tailLenLe, stringRestLenLe] <;>
      omega
  by_cases h12 : c = '}'
  · refine ⟨?_, ?_⟩ <;>
      simp_all [scanToken, Option.all, jsIsSpaceEval, alphaNumEval,
        tailTailLenLe, dropWhileLenLe, tailLenLe, stringRestLenLe] <;>
      omega
  by_cases h13 : c = '['
  · refine ⟨?_, ?_⟩ <;>
      simp_all [scanToken, Option.all, jsIsSpaceEval, alphaNumEval,
        tailTailLenLe, dropWhileLenLe, tailLenLe, stringRestLenLe] <;>
      omega
  by_cases h14 : c = ']'
  · refine ⟨?_, ?_⟩ <;>
      simp_all [scanToken, Option.all, jsIsSpaceEval, alphaNumEval,
        tailTailLenLe, dropWhileLenLe, tailLenLe, stringRestLenLe] <;>
      omega
  by_cases h15 : c = ':'
  · refine ⟨?_, ?_⟩ <;>
      simp_all [scanToken, Option.all, jsIsSpaceEval, alphaNumEval,
        tailTailLenLe, dropWhileLenLe, tailLenLe, stringRestLenLe] <;>
      omega
  by_cases h16 : c = ','
  · refine ⟨?_, ?_⟩ <;>
      simp_all [scanToken, Option.all, jsIsSpaceEval, alphaNumEval,
        tailTailLenLe, dropWhileLenLe, tailLenLe, stringRestLenLe] <;>
      omega
  by_cases h17 : c = '|'
  · refine ⟨?_, ?_⟩ <;>
      simp_all [scanToken, Option.all, jsIsSpaceEval, alphaNumEval,
        tailTailLenLe, dropWhileLenLe, tailLenLe, stringRestLenLe] <;>
      omega
  by_cases h18 : c = '@'
  · refine ⟨?_, ?_⟩ <;>
      simp_all [scanToken, Option.all, jsIsSpaceEval, alphaNumEval,
        tailTailLenLe, dropWhileLenLe, tailLenLe, stringRestLenLe] <;>
      omega
  by_cases h19 : c = '-'
  · exact absurd (h19 ▸ (by decide : isAlphaNumUnderscore '-' = true)) h10
  -- fallback branch: an unrecognized character becomes an OTHER token
  have b3 : ¬((decide (c = '/') && decide (cs.head? = some '/')) = true) := by
    simpa using h3
  have b4 : ¬((decide (c = '-') && decide (cs.head? = some '-') &&
      decide (cs.tail.head? = some '>')) = true) := by simpa using h4
  have b5 : ¬((decide (c = '-') && decide (cs.head? = some '>')) = true) := by
    simpa using h5
  have b6 : ¬((decide (c = '<') && decide (cs.head? = some '>')) = true) := by
    simpa using h6
  have b9 : ¬((decide (c = '"') || decide (c = '\'')) = true) := by simpa using h9
  unfold scanToken
  rw [if_neg h1, if_neg h2, if_neg b3, if_neg b4, if_neg b5, if_neg b6,
      if_neg h7, if_neg h8, if_neg b9, if_neg h10, if_neg h11, if_neg h12,
      if_neg h13, if_neg h14, if_neg h15, if_neg h16, if_neg h17, if_neg h18,
      if_neg h19]
  exact ⟨Nat.le_refl _, by simp [Option.all]⟩

theorem scanToken_rest_le (c : Char) (cs : List Char) (line col : Nat) :
    (scanToken c cs line col).2.1.length ≤ cs.length :=
  (scanToken_spec c cs line col).1

theorem scanToken_no_dash (c : Char) (cs : List Char) (line col : Nat) (t : Token)
    (h : (scanToken c cs line col).1 = some t) : t.type ≠ TokenType.DASH := by
  have h2 := (scanToken_spec c cs line col).2
  rw [h] at h2
  simpa using h2

/-- Shape of every completed scan: a DASH-free prefix followed by exactly one
EOF token.  The budget hypothesis is met by `tokenize` itself. -/
theorem tokenizeLoop_shape (fuel : Nat) : ∀ (cs : List Char) (line col : Nat),
    cs.length ≤ fuel →
    ∃ pre l2 c2,
      tokenizeLoop fuel cs line col = pre ++ [⟨.EOF, "<EOF>", l2, c2⟩] ∧
      ∀ t ∈ pre, t.type ≠ TokenType.DASH := by
  induction fuel with
  | zero =>
    intro cs line col hlen
    rw [List.length_eq_zero.mp (Nat.le_zero.mp hlen)]
    exact ⟨[], line, col, rfl, by intro t ht; simp at ht⟩
  | succ f ih =>
    intro cs line col hlen
    match cs with
    | [] => exact ⟨[], line, col, rfl, by intro t ht; simp at ht⟩
    | c :: cs =>
      have hrest : (scanToken c cs line col).2.1.length ≤ f := by
        have := scanToken_rest_le c cs line col
        simp only [List.length_cons] at hlen
        omega
      obtain ⟨pre, l2, c2, heq, hdash⟩ :=
        ih (scanToken c cs line col).2.1 (scanToken c cs line col).2.2.1
          (scanToken c cs line col).2.2.2 hrest
      match hs : scanToken c cs line col with
      | (some t, rest, line2, col2) =>
        refine ⟨t :: pre, l2, c2, ?_, ?_⟩
        · show tokenizeLoop (f + 1) (c :: cs) line col = _
          rw [tokenizeLoop, hs]
          rw [hs] at heq
          simp only [heq, List.cons_append]
        · intro u hu
          rcases List.mem_cons.mp hu with h | h
          · subst h; exact scanToken_no_dash c cs line col u (by rw [hs])
          · exact hdash u h
      | (none, rest, line2, col2) =>
        refine ⟨pre, l2, c2, ?_, hdash⟩
        show tokenizeLoop (f + 1) (c :: cs) line col = _
        rw [tokenizeLoop, hs]
        rw [hs] at heq
        exact heq

/-! ## Consumption bounds for the parser helpers

Every helper returns a suffix of its input stream; the strict variants
record that the head token is consumed under the conditions holding at the
call sites.  These feed the termination theorem for the parser. -/

theorem headT_nil : headT [] = eofToken := rfl

theorem headT_cons (t : Token) (rest : List Token) : headT (t :: rest) = t := by
  simp [headT, peekT]

theorem nextT_le (ts : List Token) : (nextT ts).2.length ≤ ts.length := by
  match ts with
  | [] => simp [nextT]
  | t :: rest =>
    simp only [nextT]
    split <;> simp

theorem nextT_lt (ts : List Token) (h : (headT ts).type ≠ TokenType.EOF) :
    (nextT ts).2.length < ts.length := by
  match ts with
  | [] => exact absurd rfl h
  | t :: rest =>
    rw [headT_cons] at h
    simp only [nextT, if_neg h]
    simp

theorem collectUntil_le (et : TokenType) (ts : List Token) :
    (collectUntil et ts).2.length ≤ ts.length := by
  induction ts with
  | nil => simp [collectUntil]
  | cons t rest ih =>
    simp only [collectUntil]
    split
    · simp
    · simpa using Nat.le_trans ih (Nat.le_succ _)

theorem collectUntil_lt (et : TokenType) (ts : List Token)
    (h1 : (headT ts).type ≠ TokenType.EOF) (h2 : (headT ts).type ≠ et) :
    (collectUntil et ts).2.length < ts.length := by
  match ts with
  | [] => exact absurd rfl h1
  | t :: rest =>
    rw [headT_cons] at h1 h2
    simp only [collectUntil]
    rw [if_neg (show ¬(t.type = TokenType.EOF ∨ t.type = et) by simp [h1, h2])]
    simpa using Nat.lt_succ_of_le (collectUntil_le et rest)

theorem parseMetadataLine_lt (ts : List Token)
    (h : (headT ts).type = TokenType.IDENT) :
    (parseMetadataLine ts).2.length < ts.length := by
  have hne : (headT ts).type ≠ TokenType.EOF := by rw [h]; intro hc; cases hc
  have h1 : (nextT ts).2.length < ts.length := nextT_lt ts hne
  have h2 := collectUntil_le TokenType.NEWLINE (nextT ts).2
  have h3 := nextT_le (collectUntil TokenType.NEWLINE (nextT ts).2).2
  simp only [parseMetadataLine, if_pos h]
  split
  all_goals simp only []
  all_goals split <;> omega

theorem parseMetadataLine_some (ts : List Token)
    (h : (headT ts).type = TokenType.IDENT) :
    ((parseMetadataLine ts).1).isSome := by
  simp only [parseMetadataLine, if_pos h]
  split <;> simp

theorem parseEdgeLineS_le (ts : List Token) :
    (parseEdgeLineS ts).2.length ≤ ts.length := by
  have h2 := collectUntil_le TokenType.NEWLINE ts
  have h3 := nextT_le (collectUntil TokenType.NEWLINE ts).2
  simp only [parseEdgeLineS]
  split <;> omega

theorem parseEdgeLineS_lt (ts : List Token)
    (h : (headT ts).type ≠ TokenType.EOF) :
    (parseEdgeLineS ts).2.length < ts.length := by
  by_cases hnl : (headT ts).type = TokenType.NEWLINE
  · -- the line collector stops immediately; the newline itself is consumed
    match ts with
    | [] => exact absurd rfl h
    | t :: rest =>
      rw [headT_cons] at hnl h
      have hcoll : collectUntil TokenType.NEWLINE (t :: rest) = ([], t :: rest) := by
        simp only [collectUntil]
        rw [if_pos (Or.inr hnl)]
      simp only [parseEdgeLineS, hcoll]
      rw [if_pos (by rw [headT_cons]; exact hnl)]
      simpa using nextT_lt (t :: rest) (by rw [headT_cons]; rw [hnl]; intro hc; cases hc)
  · have h1 := collectUntil_lt TokenType.NEWLINE ts h hnl
    have h3 := nextT_le (collectUntil TokenType.NEWLINE ts).2
    simp only [parseEdgeLineS]
    split <;> omega

theorem collectFieldRemaining_le (ts : List Token) :
    (collectFieldRemaining ts).2.length ≤ ts.length := by
  induction ts with
  | nil => simp [collectFieldRemaining]
  | cons t rest ih =>
    simp only [collectFieldRemaining]
    split
    · simp
    · split <;> simpa using Nat.le_trans ih (Nat.le_succ _)

theorem parseFieldsF_le (fuel : Nat) : ∀ (ts : List Token) (acc : List FieldDef),
    (parseFieldsF fuel ts acc).2.length ≤ ts.length := by
  induction fuel with
  | zero => intro ts acc; simp [parseFieldsF]
  | succ f ih =>
    intro ts acc
    match ts with
    | [] => simp [parseFieldsF]
    | t :: rest =>
      simp only [parseFieldsF]
      split
      · simp
      · split
        · exact Nat.le_trans (ih rest acc) (Nat.le_succ _)
        · split
          · -- the field-row branch: name, optional type, remainder, newline
            refine Nat.le_trans (ih _ _) ?_
            simp only [List.length_cons]
            by_cases hty : (headT rest).type = TokenType.IDENT
            · simp only [if_pos hty]
              have hA := nextT_le rest
              have hB := collectFieldRemaining_le (nextT rest).2
              have hC := nextT_le (collectFieldRemaining (nextT rest).2).2
              split <;> omega
            · simp only [if_neg hty]
              have hB := collectFieldRemaining_le rest
              have hC := nextT_le (collectFieldRemaining rest).2
              split <;> omega
          · exact Nat.le_trans (ih rest acc) (Nat.le_succ _)

theorem entityAttrStep_le (ts : List Token) :
    (entityAttrStep ts).2.length ≤ ts.length := by
  simp only [entityAttrStep]
  split
  · dsimp only
    have h1 := nextT_le ts
    have h2 := collectUntil_le TokenType.RBRACK (nextT ts).2
    have h3 := nextT_le (collectUntil TokenType.RBRACK (nextT ts).2).2
    split <;> omega
  · exact Nat.le_refl _

theorem entityFieldsStep_le (ts : List Token) :
    (entityFieldsStep ts).2.length ≤ ts.length := by
  simp only [entityFieldsStep]
  split
  · dsimp only
    have h1 := nextT_le ts
    have h2 := parseFieldsF_le (nextT ts).2.length (nextT ts).2 []
    have h3 := nextT_le (parseFieldsF (nextT ts).2.length (nextT ts).2 []).2
    split <;> omega
  · exact Nat.le_refl _

theorem parseEntityOrNodeS_le (ts : List Token) :
    (parseEntityOrNodeS ts).2.length ≤ ts.length := by
  simp only [parseEntityOrNodeS]
  by_cases hid : (headT ts).type = TokenType.IDENT
  · simp only [if_pos hid]
    have h1 := nextT_le ts
    have h2 := entityAttrStep_le (nextT ts).2
    have h3 := entityFieldsStep_le (entityAttrStep (nextT ts).2).2
    have h4 := nextT_le (entityFieldsStep (entityAttrStep (nextT ts).2).2).2
    split <;> omega
  · simp only [if_neg hid]
    have h2 := entityAttrStep_le ts
    have h3 := entityFieldsStep_le (entityAttrStep ts).2
    have h4 := nextT_le (entityFieldsStep (entityAttrStep ts).2).2
    split <;> omega

theorem parseEntityOrNodeS_lt (ts : List Token)
    (hid : (headT ts).type = TokenType.IDENT) :
    (parseEntityOrNodeS ts).2.length < ts.length := by
  simp only [parseEntityOrNodeS, if_pos hid]
  have h1 := nextT_lt ts (by rw [hid]; intro hc; cases hc)
  have h2 := entityAttrStep_le (nextT ts).2
  have h3 := entityFieldsStep_le (entityAttrStep (nextT ts).2).2
  have h4 := nextT_le (entityFieldsStep (entityAttrStep (nextT ts).2).2).2
  split <;> omega

/-- Sufficiency of the step budget for the group parser: with a budget
exceeding twice the remaining stream, `groupBodyF` completes, and
`parseGroupF` completes and consumes at least one token whenever it starts
at an opening brace or at `IDENT {` — the only shapes at which it is ever
called.  This is the termination argument for group parsing: nesting one
level deeper always consumes the name and brace first. -/
theorem groupFuelSufficient : ∀ f : Nat,
    (∀ ts : List Token, 2 * ts.length < f →
      ∃ v, groupBodyF f ts = some v ∧ v.2.length ≤ ts.length) ∧
    (∀ (nm : Option String) (ts : List Token),
      ((headT ts).type = TokenType.LBRACE ∨
        (nm = none ∧ (headT ts).type = TokenType.IDENT ∧
          (peekT ts 1).type = TokenType.LBRACE)) →
      2 * ts.length ≤ f →
      ∃ v, parseGroupF f nm ts = some v ∧ v.2.length < ts.length) := by
  intro f
  induction f with
  | zero =>
    constructor
    · intro ts h; omega
    · intro nm ts hok h
      have hts : ts = [] := by
        cases ts with
        | nil => rfl
        | cons a l => simp at h
      subst hts
      rcases hok with h1 | ⟨_, h1, _⟩ <;> simp [headT, peekT, eofToken] at h1
  | succ f ih =>
    obtain ⟨ihBody, ihGroup⟩ := ih
    have hBodyStep : ∀ ts : List Token, 2 * ts.length < f + 1 →
        ∃ v, groupBodyF (f + 1) ts = some v ∧ v.2.length ≤ ts.length := by
      intro ts hf
      rw [groupBodyF]
      by_cases h1 : (headT ts).type = TokenType.EOF ∨ (headT ts).type = TokenType.RBRACE
      · rw [if_pos h1]
        exact ⟨([], ts), rfl, Nat.le_refl _⟩
      rw [if_neg h1]
      have hne : (headT ts).type ≠ TokenType.EOF := fun hc => h1 (Or.inl hc)
      have hts : ts ≠ [] := by
        intro hc; subst hc; exact hne rfl
      by_cases h2 : (headT ts).type = TokenType.NEWLINE ∨ (headT ts).type = TokenType.OTHER
      · rw [if_pos h2]
        have hlt := nextT_lt ts hne
        obtain ⟨v, hv, hvle⟩ := ihBody (nextT ts).2 (by omega)
        exact ⟨v, hv, by omega⟩
      rw [if_neg h2]
      by_cases h3 : (headT ts).type = TokenType.IDENT ∧ (peekT ts 1).type = TokenType.LBRACE
      · rw [if_pos h3]
        by_cases h4 : looksLikeEntityDef ts = true
        · rw [if_pos h4]
          have hlt := parseEntityOrNodeS_lt ts h3.1
          obtain ⟨v, hv, hvle⟩ := ihBody (parseEntityOrNodeS ts).2 (by omega)
          dsimp only
          rw [hv]
          exact ⟨_, rfl, by simpa using by omega⟩
        · rw [if_neg h4]
          obtain ⟨g, hg, hglt⟩ := ihGroup none ts (Or.inr ⟨rfl, h3.1, h3.2⟩) (by omega)
          rw [hg]
          dsimp only
          obtain ⟨v, hv, hvle⟩ := ihBody g.2 (by omega)
          rw [hv]
          exact ⟨_, rfl, by simpa using by omega⟩
      rw [if_neg h3]
      by_cases h5 : (headT ts).type = TokenType.IDENT
      · rw [if_pos h5]
        by_cases h6 : (peekT ts 1).type = TokenType.LBRACK
        · rw [if_pos h6]
          have hlt := parseEntityOrNodeS_lt ts h5
          obtain ⟨v, hv, hvle⟩ := ihBody (parseEntityOrNodeS ts).2 (by omega)
          dsimp only
          rw [hv]
          exact ⟨_, rfl, by simpa using by omega⟩
        · rw [if_neg h6]
          have hlt := nextT_lt ts hne
          have hco := collectUntil_le TokenType.NEWLINE (nextT ts).2
          obtain ⟨v, hv, hvle⟩ :=
            ihBody (collectUntil TokenType.NEWLINE (nextT ts).2).2 (by omega)
          dsimp only
          rw [hv]
          exact ⟨_, rfl, by simpa using by omega⟩
      rw [if_neg h5]
      by_cases h7 : looksLikeEdgeLine ts = true
      · rw [if_pos h7]
        have hlt := parseEdgeLineS_lt ts hne
        obtain ⟨v, hv, hvle⟩ := ihBody (parseEdgeLineS ts).2 (by omega)
        exact ⟨v, hv, by omega⟩
      · rw [if_neg h7]
        have hlt := nextT_lt ts hne
        obtain ⟨v, hv, hvle⟩ := ihBody (nextT ts).2 (by omega)
        exact ⟨v, hv, by omega⟩
    constructor
    · exact hBodyStep
    · intro nm ts hok hf
      rcases hok with hbrace | ⟨hnm, hid, hbr1⟩
      · -- the stream is at the opening brace (explicit or fallback name)
        have hne : (headT ts).type ≠ TokenType.EOF := by
          rw [hbrace]; intro hc; cases hc
        have hlt := nextT_lt ts hne
        rcases nm with _ | nm'
        · -- no explicit name: the name expectation fails on the brace
          rw [parseGroupF.eq_def]
          dsimp only
          have hnid : ¬((headT ts).type = TokenType.IDENT) := by
            rw [hbrace]; intro hc; cases hc
          rw [if_neg hnid, if_pos hbrace]
          obtain ⟨v, hv, hvle⟩ := ihBody (nextT ts).2 (by omega)
          rw [hv]
          refine ⟨_, rfl, ?_⟩
          have := nextT_le v.2
          dsimp only
          split <;> omega
        · -- explicit name: the stream still starts at the brace
          rw [parseGroupF.eq_def]
          dsimp only
          rw [if_pos hbrace]
          obtain ⟨v, hv, hvle⟩ := ihBody (nextT ts).2 (by omega)
          rw [hv]
          refine ⟨_, rfl, ?_⟩
          have := nextT_le v.2
          dsimp only
          split <;> omega
      · -- no explicit name, at `IDENT {`
        subst hnm
        rw [parseGroupF.eq_def]
        dsimp only
        rw [if_pos hid]
        have hne : (headT ts).type ≠ TokenType.EOF := by
          rw [hid]; intro hc; cases hc
        have hlt := nextT_lt ts hne
        have hbr2 : (headT (nextT ts).2).type = TokenType.LBRACE := by
          cases ts with
          | nil => simp [headT, peekT, eofToken] at hid
          | cons t rest =>
            rw [headT_cons] at hid
            have hnx : (nextT (t :: rest)).2 = rest := by
              simp [nextT, show t.type ≠ TokenType.EOF from by rw [hid]; intro hc; cases hc]
            rw [hnx]
            simpa [peekT, headT] using hbr1
        rw [if_pos hbr2]
        have hlt2 := nextT_le (nextT ts).2
        have hlt3 := nextT_lt (nextT ts).2 (by rw [hbr2]; intro hc; cases hc)
        obtain ⟨v, hv, hvle⟩ := ihBody (nextT (nextT ts).2).2 (by omega)
        rw [hv]
        refine ⟨_, rfl, ?_⟩
        have := nextT_le v.2
        dsimp only
        split <;> omega

/-- Sufficiency of the step budget for the top-level dispatch loop: every
iteration consumes at least one token (group bodies receive their own
sufficient budget), so any budget exceeding the stream length completes. -/
theorem parseLoopFSufficient : ∀ (f : Nat) (md : List (String × MetaValue))
    (rb : List BlockNode) (eg : List EdgeNode) (ts : List Token),
    ts.length < f → (parseLoopF f md rb eg ts).isSome := by
  intro f
  induction f with
  | zero => intro md rb eg ts h; omega
  | succ f ih =>
    intro md rb eg ts hf
    rw [parseLoopF.eq_def]
    dsimp only
    by_cases c1 : (headT ts).type = TokenType.EOF
    · rw [if_pos c1]; rfl
    rw [if_neg c1]
    have hts : ts ≠ [] := fun hc => c1 (by rw [hc]; rfl)
    by_cases c2 : (headT ts).type = TokenType.NEWLINE ∨ (headT ts).type = TokenType.OTHER
    · rw [if_pos c2]
      exact ih md rb eg (nextT ts).2 (by have := nextT_lt ts c1; omega)
    rw [if_neg c2]
    by_cases c3 : (headT ts).type = TokenType.IDENT
    · rw [if_pos c3]
      by_cases c4 : strToLower (headT ts).text = "group" ∧
          (peekT ts 1).type = TokenType.IDENT ∧ (peekT ts 2).type = TokenType.LBRACE
      · rw [if_pos c4]
        -- the stream must be `IDENT IDENT {` here; destructure it
        match ts with
        | [] => exact absurd rfl hts
        | [t] =>
          exfalso
          have : (peekT [t] 1).type = TokenType.EOF := rfl
          rw [c4.2.1] at this; cases this
        | t :: t1 :: rest2 =>
          have htne : t.type ≠ TokenType.EOF := by
            rw [headT_cons] at c3; rw [c3]; intro hc; cases hc
          have h1 : (nextT (t :: t1 :: rest2)).2 = t1 :: rest2 := by
            simp [nextT, htne]
          have ht1 : t1.type = TokenType.IDENT := by
            have hp : peekT (t :: t1 :: rest2) 1 = t1 := by simp [peekT]
            rw [hp] at c4; exact c4.2.1
          have ht1ne : t1.type ≠ TokenType.EOF := by rw [ht1]; intro hc; cases hc
          have h2 : (nextT (t1 :: rest2)).2 = rest2 := by simp [nextT, ht1ne]
          have hbr : (headT rest2).type = TokenType.LBRACE := by
            have : peekT (t :: t1 :: rest2) 2 = headT rest2 := by
              simp [peekT, headT]
            rw [← this]; exact c4.2.2
          rw [h1, headT_cons t1 rest2]
          rw [if_pos ht1]
          dsimp only [Option.map]
          rw [h2]
          obtain ⟨g, hg, hglt⟩ := (groupFuelSufficient (2 * rest2.length + 1)).2
            (some t1.text) rest2 (Or.inl hbr) (by omega)
          rw [hg]
          refine ih md (rb ++ [g.1]) eg g.2 ?_
          simp only [List.length_cons] at hf
          omega
      rw [if_neg c4]
      by_cases c5 : (peekT ts 1).type = TokenType.LBRACE
      · rw [if_pos c5]
        by_cases c6 : looksLikeEntityDef ts = true
        · rw [if_pos c6]
          exact ih md (rb ++ [(parseEntityOrNodeS ts).1]) eg (parseEntityOrNodeS ts).2
            (by have := parseEntityOrNodeS_lt ts c3; omega)
        · rw [if_neg c6]
          obtain ⟨g, hg, hglt⟩ := (groupFuelSufficient (2 * ts.length + 1)).2
            none ts (Or.inr ⟨rfl, c3, c5⟩) (by omega)
          rw [hg]
          exact ih md (rb ++ [g.1]) eg g.2 (by omega)
      rw [if_neg c5]
      by_cases c7 : (peekT ts 1).type = TokenType.LBRACK
      · rw [if_pos c7]
        exact ih md (rb ++ [(parseEntityOrNodeS ts).1]) eg (parseEntityOrNodeS ts).2
          (by have := parseEntityOrNodeS_lt ts c3; omega)
      rw [if_neg c7]
      by_cases c8 : looksLikeEdgeLine ts = true
      · rw [if_pos c8]
        exact ih md rb (eg ++ (parseEdgeLineS ts).1) (parseEdgeLineS ts).2
          (by have := parseEdgeLineS_lt ts c1; omega)
      rw [if_neg c8]
      -- metadata: always succeeds at an identifier, so the fallback branch
      -- is vacuous
      have hsome := parseMetadataLine_some ts c3
      match hm : parseMetadataLine ts with
      | (some kv, ts2) =>
        dsimp only
        refine ih (setKey md kv.1 kv.2) rb eg ts2 ?_
        have := parseMetadataLine_lt ts c3
        rw [hm] at this
        dsimp only at this
        omega
      | (none, ts2) =>
        rw [hm] at hsome
        simp at hsome
    rw [if_neg c3]
    by_cases c8 : looksLikeEdgeLine ts = true
    · rw [if_pos c8]
      exact ih md rb (eg ++ (parseEdgeLineS ts).1) (parseEdgeLineS ts).2
        (by have := parseEdgeLineS_lt ts c1; omega)
    · rw [if_neg c8]
      exact ih md rb eg (nextT ts).2 (by have := nextT_lt ts c1; omega)

/-! ## Shape of the scanner output -/

/-- Every completed scan is a DASH-free token list closed by exactly one EOF
token; `tokenize` always presents a sufficient budget, so this describes
every `tokenize` result. -/
theorem tokenize_shape (s : String) :
    ∃ pre l2 c2,
      tokenize s = pre ++ [⟨.EOF, "<EOF>", l2, c2⟩] ∧
      ∀ t ∈ pre, t.type ≠ TokenType.DASH := by
  exact tokenizeLoop_shape s.toList.length s.toList 1 1 (Nat.le_refl _)

/-- No token produced by the scanner is a DASH token: a lone dash belongs to
the identifier character class and is folded into an identifier. -/
theorem tokenize_no_dash (s : String) (t : Token) (ht : t ∈ tokenize s) :
    t.type ≠ TokenType.DASH := by
  obtain ⟨pre, l2, c2, heq, hdash⟩ := tokenize_shape s
  rw [heq] at ht
  rcases List.mem_append.mp ht with h | h
  · exact hdash t h
  · rw [List.mem_singleton.mp h]
    intro hc
    cases hc

/-! ## Claim theorems -/

/-- C6: for every input string, `tokenize` terminates with its budget (the
result has the completed EOF-terminated shape, which the exhausted-budget
result `[]` never has), never throws (it is a total function whose fallback
branch turns an unrecognized character into an OTHER token, illustrated on
`~`), and the returned token list is non-empty with the end-of-input token
as its last element. -/
theorem C6_tokenize_total_eof (s : String) :
    tokenize s ≠ [] ∧
    ((tokenize s).getLast?).map Token.type = some TokenType.EOF ∧
    tokenize "~" = [⟨.OTHER, "~", 1, 1⟩, ⟨.EOF, "<EOF>", 1, 2⟩] := by
  obtain ⟨pre, l2, c2, heq, _⟩ := tokenize_shape s
  refine ⟨?_, ?_, by rfl⟩
  · rw [heq]
    simp
  · rw [heq, List.getLast?_append_cons]
    rfl

/-- C3: for every input string (and optional diagram-type hint), the public
parse entry point terminates and returns a complete `Document`: the parser
never runs out of its step budget (`none`, the model of divergence or an
escaped exception, never occurs). -/
theorem C3_parse_total (s : String) (diagHint : Option String) :
    ∃ d : DiagramAST, parseEraserDSLHint s diagHint = some d := by
  have h := parseLoopFSufficient (2 * (tokenize s).length + 3) [] [] []
    (tokenize s) (by omega)
  unfold parseEraserDSLHint parseTokens
  dsimp only
  match hm : parseLoopF (2 * (tokenize s).length + 3) [] [] [] (tokenize s) with
  | some mre =>
    exact ⟨_, rfl⟩
  | none =>
    rw [hm] at h
    simp at h

/-- C5 (counterexample): `A - B` does not parse to one undirected edge — the
lone dash is scanned as an identifier, the line contains no connector token,
and the whole line is taken as a metadata entry `A ↦ "- B"` with no edges at
all. -/
theorem C5_counterexample :
    (parseEraserDSL "A - B").map (fun d => (d.edges, d.metadata)) =
      some ([], [("A", MetaValue.str "- B")]) := by
  rfl

/-- C5 (amended): connector text maps to edge kind as claimed — `<>` to
bidirectional, a DASH connector token to undirected, every arrow form to
directed — but the tokenizer never emits a DASH token (a lone dash is folded
into the identifier scan), so the undirected mapping is unreachable from
source text and `A - B` parses as a metadata line with no edges. -/
theorem C5_connector_kinds :
    (∀ (s : String) (t : Token), t ∈ tokenize s → t.type ≠ TokenType.DASH) ∧
    connectorEdgeKind "<>" = EdgeKind.bidirectional ∧
    connectorEdgeKind "-" = EdgeKind.undirected ∧
    connectorEdgeKind ">" = EdgeKind.directed ∧
    connectorEdgeKind "->" = EdgeKind.directed ∧
    connectorEdgeKind "-->" = EdgeKind.directed ∧
    (parseEraserDSL "A <> B").map (fun d => d.edges.map fun e => (e.fromId, e.toId, e.kind)) =
      some [("A", "B", EdgeKind.bidirectional)] ∧
    (parseEraserDSL "A > B").map (fun d => d.edges.map fun e => e.kind) =
      some [EdgeKind.directed] ∧
    (parseEraserDSL "A -> B").map (fun d => d.edges.map fun e => e.kind) =
      some [EdgeKind.directed] ∧
    (parseEraserDSL "A --> B").map (fun d => d.edges.map fun e => e.kind) =
      some [EdgeKind.directed] ∧
    (parseEraserDSL "A - B").map (fun d => (d.edges, d.metadata)) =
      some ([], [("A", MetaValue.str "- B")]) := by
  exact ⟨tokenize_no_dash, rfl, rfl, rfl, rfl, rfl, rfl, rfl, rfl, rfl, rfl⟩

theorem C5_connector_kinds_witness :
    (⟨TokenType.IDENT, "A", 1, 1⟩ : Token).type ≠ TokenType.DASH :=
  C5_connector_kinds.1 "A" ⟨TokenType.IDENT, "A", 1, 1⟩ (by decide)

/-- C8 (counterexample): a polyline with fewer than two points does not
degrade to a straight segment — `points[1]` (or `points[0]`) is read
unconditionally in the short-circuit branch, so the construction faults
(modelled by `none`). -/
theorem C8_counterexample :
    getRoundedPath (fun _ => 0) [] 8 = none ∧
    getRoundedPath (fun _ => 0) [⟨1, 2⟩] 8 = none := ⟨rfl, rfl⟩

/-- C8 (amended): a polyline with fewer than three points and at least two
degrades to the straight segment `M p0 L p1` without error; with fewer than
two points the construction reads a missing point and faults. -/
theorem C8_rounded_path_degenerate (sqrt : Rat → Rat) (p0 p1 : Point) (r : Rat) :
    getRoundedPath sqrt [p0, p1] r = some [.move p0, .line p1] ∧
    getRoundedPath sqrt [] r = none ∧
    getRoundedPath sqrt [p0] r = none :=
  ⟨rfl, rfl, rfl⟩

/-- C2: a connector step emits the full cross-product — each connector
followed by a node group produces one edge from every current left id to
every right id, every edge carries the line's shared label and the
connector's kind, the right group becomes the new left side, and a plain
node group resets the left side.  Concretely,
`A, B -> C, D : text` yields the four labelled directed edges and
`X > Y -> Z` chains through `Y`. -/
theorem C2_edge_chain_cross_product :
    (∀ (label : Option String) (last : Option (List String)) (c : String)
        (ns : List String) (rest : List ChainEl),
      buildEdges label last (.connector c :: .nodes ns :: rest) =
        crossEdges label c (last.getD []) ns ++ buildEdges label (some ns) rest) ∧
    (∀ (label : Option String) (last : Option (List String))
        (ns : List String) (rest : List ChainEl),
      buildEdges label last (.nodes ns :: rest) = buildEdges label (some ns) rest) ∧
    (∀ (label : Option String) (c : String) (froms tos : List String),
      (crossEdges label c froms tos).length = froms.length * tos.length) ∧
    (∀ (label : Option String) (c : String) (froms tos : List String)
        (e : EdgeNode), e ∈ crossEdges label c froms tos →
      e.label = label ∧ e.kind = connectorEdgeKind c ∧
      e.fromId ∈ froms ∧ e.toId ∈ tos) ∧
    (∀ (label : Option String) (c : String) (froms tos : List String)
        (fr tt : String), fr ∈ froms → tt ∈ tos →
      ∃ e ∈ crossEdges label c froms tos, e.fromId = fr ∧ e.toId = tt) ∧
    (parseEraserDSL "A, B -> C, D : text").map
        (fun d => d.edges.map fun e => (e.fromId, e.toId, e.kind, e.label)) =
      some [("A", "C", EdgeKind.directed, some "text"),
            ("A", "D", EdgeKind.directed, some "text"),
            ("B", "C", EdgeKind.directed, some "text"),
            ("B", "D", EdgeKind.directed, some "text")] ∧
    (parseEraserDSL "X > Y -> Z").map
        (fun d => d.edges.map fun e => (e.fromId, e.toId)) =
      some [("X", "Y"), ("Y", "Z")] := by
  refine ⟨fun _ _ _ _ _ => rfl, fun _ _ _ _ => rfl, ?_, ?_, ?_, rfl, rfl⟩
  · intro label c froms tos
    induction froms with
    | nil => simp [crossEdges]
    | cons f fs ih =>
      simp only [crossEdges, List.flatMap_cons, List.length_append,
        List.length_map, List.length_cons] at ih ⊢
      rw [ih]; ring
  · intro label c froms tos e he
    simp only [crossEdges, List.mem_flatMap, List.mem_map] at he
    obtain ⟨f, hf, t, ht, rfl⟩ := he
    exact ⟨rfl, rfl, hf, ht⟩
  · intro label c froms tos fr tt hf ht
    refine ⟨{ fromId := fr, toId := tt, kind := connectorEdgeKind c,
              label := label,
              raw := fr ++ " " ++ c ++ " " ++ tt ++
                (match label with
                 | some l => if l = "" then "" else " : " ++ l
                 | none => "") }, ?_, rfl, rfl⟩
    simp only [crossEdges, List.mem_flatMap, List.mem_map]
    exact ⟨fr, hf, tt, ht, rfl⟩

theorem C2_edge_chain_cross_product_witness :
    ∃ e ∈ crossEdges (some "text") "->" ["A", "B"] ["C", "D"],
      e.fromId = "B" ∧ e.toId = "D" :=
  C2_edge_chain_cross_product.2.2.2.2.1 (some "text") "->" ["A", "B"]
    ["C", "D"] "B" "D" (by decide) (by decide)

/-- C10 (counterexample): an edge-chain line inside a group's braces does
contribute to the output — `A > B` inside `G { }` never reaches the
edge-line branch (the leading identifier wins), `A` is added as a lone
entity child of the group, and the rest of the line is skipped. -/
theorem C10_counterexample :
    (parseEraserDSL "G \x7b\nA > B\n\x7d").map (fun d => (d.rootBlocks, d.edges)) =
      some ([.group "G" [.entity "A" [] none "A"]], []) ∧
    (parseEraserDSL "G \x7b\n\x7d").map (fun d => (d.rootBlocks, d.edges)) =
      some ([.group "G" []], []) := ⟨rfl, rfl⟩

/-- C10 (amended): inside a group body an edge line that does not start
with an identifier is parsed and its edges discarded (the body continues on
the remaining tokens, adding no child), while an identifier-headed line —
edge syntax included — collapses to a lone entity child with the rest of
the line skipped; either way no Edge record escapes a group body, as the
concrete runs show. -/
theorem C10_group_edge_lines :
    (∀ (fuel : Nat) (ts : List Token),
      (headT ts).type ≠ TokenType.EOF → (headT ts).type ≠ TokenType.RBRACE →
      (headT ts).type ≠ TokenType.NEWLINE → (headT ts).type ≠ TokenType.OTHER →
      (headT ts).type ≠ TokenType.IDENT → looksLikeEdgeLine ts = true →
      groupBodyF (fuel + 1) ts = groupBodyF fuel (parseEdgeLineS ts).2) ∧
    (∀ (fuel : Nat) (ts : List Token),
      (headT ts).type = TokenType.IDENT →
      (peekT ts 1).type ≠ TokenType.LBRACE →
      (peekT ts 1).type ≠ TokenType.LBRACK →
      groupBodyF (fuel + 1) ts =
        (groupBodyF fuel (collectUntil TokenType.NEWLINE (nextT ts).2).2).map
          (fun b => (BlockNode.entity (headT ts).text [] none (headT ts).text :: b.1, b.2))) ∧
    (parseEraserDSL ", A > B").map
        (fun d => (d.rootBlocks, d.edges.map fun e => (e.fromId, e.toId))) =
      some ([], [("A", "B")]) ∧
    (parseEraserDSL "G \x7b\n, A > B\n\x7d").map (fun d => (d.rootBlocks, d.edges)) =
      some ([.group "G" []], []) := by
  refine ⟨?_, ?_, rfl, rfl⟩
  · intro fuel ts h1 h2 h3 h4 h5 h6
    rw [groupBodyF.eq_def]
    dsimp only
    rw [if_neg (by tauto), if_neg (by tauto), if_neg (by tauto), if_neg h5,
      if_pos h6]
  · intro fuel ts h1 h2 h3
    rw [groupBodyF.eq_def]
    dsimp only
    rw [if_neg (by simp [h1]), if_neg (by simp [h1]), if_neg (by tauto),
      if_pos h1, if_neg h3]

theorem C10_group_edge_lines_witness :
    groupBodyF 6 [⟨TokenType.COMMA, ",", 1, 1⟩, ⟨TokenType.IDENT, "A", 1, 3⟩,
        ⟨TokenType.GT, ">", 1, 5⟩, ⟨TokenType.IDENT, "B", 1, 7⟩,
        ⟨TokenType.EOF, "<EOF>", 1, 8⟩] =
      groupBodyF 5 (parseEdgeLineS [⟨TokenType.COMMA, ",", 1, 1⟩,
        ⟨TokenType.IDENT, "A", 1, 3⟩, ⟨TokenType.GT, ">", 1, 5⟩,
        ⟨TokenType.IDENT, "B", 1, 7⟩, ⟨TokenType.EOF, "<EOF>", 1, 8⟩]).2 :=
  C10_group_edge_lines.1 5 _ (by decide) (by decide) (by decide) (by decide)
    (by decide) (by decide)

/-- C4: at top level a bare-identifier line that is not a group form, not
`name {`, not `name [`, and not an edge line is committed as metadata: the
identifier is the key, the parse loop records the pair and moves past the
line.  The metadata interpretation never fails on such a line (an empty
remainder is the boolean flag form, which the spec counts as a `key
value...` line), so the lone-entity fallback is never reached — vacuously,
whenever every interpretation failed a bare identifier would become a lone
entity.  The concrete run shows both the string and the flag value forms.
-/
theorem C4_metadata_dispatch :
    (∀ (fuel : Nat) (md : List (String × MetaValue)) (rb : List BlockNode)
        (eg : List EdgeNode) (ts : List Token),
      (headT ts).type = TokenType.IDENT →
      ¬(strToLower (headT ts).text = "group" ∧
          (peekT ts 1).type = TokenType.IDENT ∧
          (peekT ts 2).type = TokenType.LBRACE) →
      (peekT ts 1).type ≠ TokenType.LBRACE →
      (peekT ts 1).type ≠ TokenType.LBRACK →
      looksLikeEdgeLine ts = false →
      ∃ kv ts2, parseMetadataLine ts = (some kv, ts2) ∧
        kv.1 = (headT ts).text ∧
        parseLoopF (fuel + 1) md rb eg ts =
          parseLoopF fuel (setKey md kv.1 kv.2) rb eg ts2) ∧
    (parseEraserDSL "title hello world\nfullscreen\n").map
        (fun d => (d.metadata, d.rootBlocks)) =
      some ([("title", MetaValue.str "hello world"),
             ("fullscreen", MetaValue.bool true)], []) := by
  refine ⟨?_, rfl⟩
  intro fuel md rb eg ts h1 h2 h3 h4 h5
  have hkey : ∃ v ts2, parseMetadataLine ts = (some ((headT ts).text, v), ts2) := by
    simp only [parseMetadataLine, if_pos h1]
    split
    · exact ⟨MetaValue.bool true, _, rfl⟩
    · exact ⟨MetaValue.str _, _, rfl⟩
  obtain ⟨v, ts2, hm⟩ := hkey
  refine ⟨((headT ts).text, v), ts2, hm, rfl, ?_⟩
  rw [parseLoopF.eq_def]
  dsimp only
  rw [if_neg (by simp [h1]), if_neg (by simp [h1]), if_pos h1, if_neg h2,
    if_neg h3, if_neg h4, if_neg (by simp [h5]), hm]

theorem C4_metadata_dispatch_witness :
    ∃ kv ts2,
      parseMetadataLine [⟨TokenType.IDENT, "title", 1, 1⟩,
          ⟨TokenType.IDENT, "hello", 1, 7⟩, ⟨TokenType.EOF, "<EOF>", 1, 12⟩] =
        (some kv, ts2) ∧
      kv.1 = (headT [⟨TokenType.IDENT, "title", 1, 1⟩,
          ⟨TokenType.IDENT, "hello", 1, 7⟩,
          ⟨TokenType.EOF, "<EOF>", 1, 12⟩]).text ∧
      parseLoopF 4 [] [] [] [⟨TokenType.IDENT, "title", 1, 1⟩,
          ⟨TokenType.IDENT, "hello", 1, 7⟩, ⟨TokenType.EOF, "<EOF>", 1, 12⟩] =
        parseLoopF 3 (setKey [] kv.1 kv.2) [] [] ts2 :=
  C4_metadata_dispatch.1 3 [] [] [] _ (by decide) (by decide) (by decide)
    (by decide) (by decide)

mutual

theorem visitBlock_spec (b : BlockNode) :
    visitBlock b = ((flattenBlock b).any specFieldsSignal,
      (flattenBlock b).any specStyleSignal,
      (flattenBlock b).any specParticipantSignal) := by
  match b with
  | .entity id attrs fields raw =>
    cases fields <;>
      simp [visitBlock, flattenBlock, specFieldsSignal, specStyleSignal,
        specParticipantSignal]
  | .group name children =>
    have ih := visitBlocks_spec children
    simp [visitBlock, flattenBlock, ih, specFieldsSignal, specStyleSignal,
      specParticipantSignal]

theorem visitBlocks_spec (bs : List BlockNode) :
    visitBlocks bs = ((flattenBlocks bs).any specFieldsSignal,
      (flattenBlocks bs).any specStyleSignal,
      (flattenBlocks bs).any specParticipantSignal) := by
  match bs with
  | [] => rfl
  | b :: rest =>
    have ih1 := visitBlock_spec b
    have ih2 := visitBlocks_spec rest
    simp [visitBlocks, flattenBlocks, ih1, ih2, List.any_append]

end

/-- C9 (counterexample): the claimed cascade is wrong about the secondary
sequence trigger.  A document with only `title` metadata, no styled node
anywhere, and three directed edges classifies as sequence — the code's
style flag also fires on truthy `title`/`colorMode`/`styleMode` metadata —
while the claim's styled-nodes cascade (tree-walk attribute signals only)
says graph. -/
theorem C9_counterexample :
    inferDiagramType []
        [⟨"A", "B", EdgeKind.directed, none, "A > B"⟩,
         ⟨"B", "C", EdgeKind.directed, none, "B > C"⟩,
         ⟨"C", "D", EdgeKind.directed, none, "C > D"⟩]
        [("title", MetaValue.str "X")] = "sequence" ∧
    classifierSpec []
        [⟨"A", "B", EdgeKind.directed, none, "A > B"⟩,
         ⟨"B", "C", EdgeKind.directed, none, "B > C"⟩,
         ⟨"C", "D", EdgeKind.directed, none, "C > D"⟩]
        [("title", MetaValue.str "X")] = "graph" := ⟨rfl, rfl⟩

/-- C9 (amended): the classifier implements the claimed fixed priority
once the styled-nodes signal is widened to also fire on truthy
`title`/`colorMode`/`styleMode` metadata — explicit non-empty string
`type` metadata wins; otherwise sequence signals (autoNumber metadata,
control-flow keywords in edge labels, participant-like naming anywhere in
the tree), then the widened styled signal with directed edges and at least
three edges, then field presence (entity-relationship), then any edge
(graph), otherwise unknown. -/
theorem C9_classifier_priority_amended :
    (∀ (rb : List BlockNode) (eg : List EdgeNode)
        (md : List (String × MetaValue)),
      inferDiagramType rb eg md = classifierSpecAmended rb eg md) ∧
    (∀ (rb : List BlockNode) (eg : List EdgeNode)
        (md : List (String × MetaValue)) (s : String),
      getKey md "type" = some (MetaValue.str s) → s ≠ "" →
      inferDiagramType rb eg md = s) := by
  constructor
  · intro rb eg md
    simp only [inferDiagramType, inferDiagramTypeCore, classifierSpecAmended,
      visitBlocks_spec]
  · intro rb eg md s h hne
    simp only [inferDiagramType, h]
    rw [if_neg hne]

theorem C9_classifier_priority_amended_witness :
    inferDiagramType [] [] [("type", MetaValue.str "er")] = "er" :=
  C9_classifier_priority_amended.2 [] [] [("type", MetaValue.str "er")] "er"
    (by decide) (by decide)

/-- Fallback edge routing succeeds when every endpoint of every edge is
present in the node map. -/
theorem computeEdgeRoutingAux_total (nodes : List (String × Rect))
    (es : List EdgeNode)
    (h : ∀ e ∈ es, (getKey nodes e.fromId).isSome ∧ (getKey nodes e.toId).isSome) :
    ∀ i, (computeEdgeRoutingAux nodes i es).isSome := by
  induction es with
  | nil => intro i; simp [computeEdgeRoutingAux]
  | cons e rest ih =>
    intro i
    obtain ⟨hf, ht⟩ := h e (by simp)
    obtain ⟨fb, hfb⟩ := Option.isSome_iff_exists.mp hf
    obtain ⟨tb, htb⟩ := Option.isSome_iff_exists.mp ht
    have hrest := ih (fun e2 he2 => h e2 (by simp [he2])) (i + 1)
    simp [computeEdgeRoutingAux, hfb, htb, hrest]

/-- C1 (counterexample): `A > B` parses to one edge whose endpoints were
never declared, and the layout result registers no node at all — the edge
is silently dropped rather than completed with stub endpoints, and the
fallback edge router faults on the dangling reference instead of
synthesizing one. -/
theorem C1_counterexample :
    (parseEraserDSL "A > B").map
        (fun d => (d.edges.map fun e => (e.fromId, e.toId),
          graphLayoutNodeIds d, graphLayoutGroupIds d,
          (graphLayoutEdges d).length)) =
      some ([("A", "B")], [], [], 0) ∧
    computeEdgeRouting [⟨"A", "B", EdgeKind.directed, none, "A > B"⟩] [] =
      none := ⟨rfl, rfl⟩

/-- C1 (amended): no stub node is ever synthesized.  Instead (i) the
endpoints of every edge that survives graph-layout registration are
themselves registered, (ii) an edge either of whose resolved endpoints is
unregistered is dropped from the layout result, (iii) the fallback edge
router faults (throws) on the first edge with a missing endpoint, and (iv)
it succeeds precisely when every endpoint is present. -/
theorem C1_no_stub_synthesis :
    (∀ (ast : DiagramAST) (u v : String) (e : EdgeNode),
      (u, v, e) ∈ graphLayoutEdges ast →
      (getKey (registerBlocks [] ast.rootBlocks) u).isSome ∧
      (getKey (registerBlocks [] ast.rootBlocks) v).isSome) ∧
    (∀ (reg : List (String × Bool)) (ids : List String) (es : List EdgeNode)
        (e : EdgeNode),
      ¬((getKey reg (resolveNodeId ids e.fromId)).isSome ∧
        (getKey reg (resolveNodeId ids e.toId)).isSome) →
      ∀ u v, (u, v, e) ∉ graphRegEdges reg ids es) ∧
    (∀ (nodes : List (String × Rect)) (i : Nat) (e : EdgeNode)
        (rest : List EdgeNode),
      getKey nodes e.fromId = none ∨ getKey nodes e.toId = none →
      computeEdgeRoutingAux nodes i (e :: rest) = none) ∧
    (∀ (nodes : List (String × Rect)) (es : List EdgeNode),
      (∀ e ∈ es, (getKey nodes e.fromId).isSome ∧
        (getKey nodes e.toId).isSome) →
      (computeEdgeRouting es nodes).isSome) := by
  refine ⟨?_, ?_, ?_, ?_⟩
  · intro ast u v e hmem
    simp only [graphLayoutEdges, graphRegEdges, List.mem_filterMap] at hmem
    obtain ⟨e2, he2, hif⟩ := hmem
    by_cases hc :
        (getKey (registerBlocks [] ast.rootBlocks)
          (resolveNodeId (nodeMapIdsList [] ast.rootBlocks) e2.fromId)).isSome ∧
        (getKey (registerBlocks [] ast.rootBlocks)
          (resolveNodeId (nodeMapIdsList [] ast.rootBlocks) e2.toId)).isSome
    · rw [if_pos hc] at hif
      simp only [Option.some.injEq, Prod.mk.injEq] at hif
      obtain ⟨hu, hv, he3⟩ := hif
      subst hu; subst hv
      exact hc
    · rw [if_neg hc] at hif
      cases hif
  · intro reg ids es e hne u v hmem
    simp only [graphRegEdges, List.mem_filterMap] at hmem
    obtain ⟨e2, he2, hif⟩ := hmem
    by_cases hc : (getKey reg (resolveNodeId ids e2.fromId)).isSome ∧
        (getKey reg (resolveNodeId ids e2.toId)).isSome
    · rw [if_pos hc] at hif
      simp only [Option.some.injEq, Prod.mk.injEq] at hif
      obtain ⟨hu, hv, he3⟩ := hif
      subst he3
      exact hne hc
    · rw [if_neg hc] at hif
      cases hif
  · intro nodes i e rest h
    cases hf : getKey nodes e.fromId <;> cases ht : getKey nodes e.toId <;>
      simp_all [computeEdgeRoutingAux]
  · intro nodes es h
    exact computeEdgeRoutingAux_total nodes es h 0

theorem C1_no_stub_synthesis_witness :
    (getKey (registerBlocks []
        (DiagramAST.mk "graph" []
          [.entity "A" [] none "A", .entity "B" [] none "B"]
          [⟨"A", "B", EdgeKind.directed, none, "A > B"⟩] 1).rootBlocks)
      "A").isSome ∧
    (getKey (registerBlocks []
        (DiagramAST.mk "graph" []
          [.entity "A" [] none "A", .entity "B" [] none "B"]
          [⟨"A", "B", EdgeKind.directed, none, "A > B"⟩] 1).rootBlocks)
      "B").isSome :=
  C1_no_stub_synthesis.1
    (DiagramAST.mk "graph" []
      [.entity "A" [] none "A", .entity "B" [] none "B"]
      [⟨"A", "B", EdgeKind.directed, none, "A > B"⟩] 1)
    "A" "B" ⟨"A", "B", EdgeKind.directed, none, "A > B"⟩ (by decide)

/-- Object-map update/lookup interaction. -/
theorem getKey_setKey {α : Type} (l : List (String × α)) (k k2 : String) (v : α) :
    getKey (setKey l k v) k2 = if k = k2 then some v else getKey l k2 := by
  induction l with
  | nil => simp [setKey, getKey]
  | cons p rest ih =>
    obtain ⟨k3, v3⟩ := p
    by_cases h3 : k3 = k <;> by_cases h2 : k = k2 <;> by_cases h4 : k3 = k2 <;>
      simp_all [setKey, getKey]

theorem foldl_min_le (l : List Rat) (a : Rat) :
    l.foldl min a ≤ a ∧ ∀ x ∈ l, l.foldl min a ≤ x := by
  induction l generalizing a with
  | nil => simp
  | cons b bs ih =>
    simp only [List.foldl_cons]
    obtain ⟨h1, h2⟩ := ih (min a b)
    refine ⟨le_trans h1 (min_le_left a b), ?_⟩
    intro x hx
    rcases List.mem_cons.mp hx with rfl | hx
    · exact le_trans h1 (min_le_right _ _)
    · exact h2 x hx

theorem le_foldl_max (l : List Rat) (a : Rat) :
    a ≤ l.foldl max a ∧ ∀ x ∈ l, x ≤ l.foldl max a := by
  induction l generalizing a with
  | nil => simp
  | cons b bs ih =>
    simp only [List.foldl_cons]
    obtain ⟨h1, h2⟩ := ih (max a b)
    refine ⟨le_trans (le_max_left a b) h1, ?_⟩
    intro x hx
    rcases List.mem_cons.mp hx with rfl | hx
    · exact le_trans (le_max_right _ _) h1
    · exact h2 x hx

theorem ratMin_le {l : List Rat} {x : Rat} (h : x ∈ l) : ratMin l ≤ x := by
  match l with
  | [] => cases h
  | a :: rest =>
    rcases List.mem_cons.mp h with rfl | hx
    · exact (foldl_min_le rest x).1
    · exact (foldl_min_le rest a).2 x hx

theorem le_ratMax {l : List Rat} {x : Rat} (h : x ∈ l) : x ≤ ratMax l := by
  match l with
  | [] => cases h
  | a :: rest =>
    rcases List.mem_cons.mp h with rfl | hx
    · exact (le_foldl_max rest x).1
    · exact (le_foldl_max rest a).2 x hx

/-- Every entry of the group-layout map comes from a group of the input
list with a non-empty resolved child-bounds list, and records exactly the
padded union of those bounds. -/
theorem computeGroupLayoutAux_sound (nls : List (String × Rect)) (name : String) :
    ∀ (gs : List BlockNode) (out : List (String × GroupLayout)) (gl : GroupLayout),
      getKey (computeGroupLayoutAux nls out gs) name = some gl →
      getKey out name = some gl ∨
      ∃ children, BlockNode.group name children ∈ gs ∧
        childBoundsOf nls children ≠ [] ∧
        gl = ⟨name, BlockNode.group name children, entityIdsOf children,
          GROUP_PADDING, groupUnionBounds (childBoundsOf nls children)⟩ := by
  intro gs
  induction gs with
  | nil => intro out gl h; exact Or.inl h
  | cons g rest ih =>
    intro out gl h
    match g with
    | .entity id attrs fields raw =>
      rcases ih out gl (by simpa [computeGroupLayoutAux] using h) with
        h1 | ⟨c, hc, hne, hgl⟩
      · exact Or.inl h1
      · exact Or.inr ⟨c, by simp [hc], hne, hgl⟩
    | .group name2 children2 =>
      by_cases hemp : (childBoundsOf nls children2).isEmpty
      · have h2 : computeGroupLayoutAux nls out (BlockNode.group name2 children2 :: rest) =
            computeGroupLayoutAux nls out rest := by
          simp [computeGroupLayoutAux, hemp]
        rcases ih out gl (h2 ▸ h) with h1 | ⟨c, hc, hne, hgl⟩
        · exact Or.inl h1
        · exact Or.inr ⟨c, by simp [hc], hne, hgl⟩
      · have h2 : computeGroupLayoutAux nls out (BlockNode.group name2 children2 :: rest) =
            computeGroupLayoutAux nls
              (setKey out name2 ⟨name2, .group name2 children2,
                entityIdsOf children2, GROUP_PADDING,
                groupUnionBounds (childBoundsOf nls children2)⟩) rest := by
          simp [computeGroupLayoutAux, hemp]
        rcases ih _ gl (h2 ▸ h) with h1 | ⟨c, hc, hne, hgl⟩
        · rw [getKey_setKey] at h1
          by_cases hn : name2 = name
          · rw [if_pos hn] at h1
            subst hn
            refine Or.inr ⟨children2, by simp, ?_, (Option.some.inj h1).symm⟩
            intro hEq
            exact hemp (by simp [hEq])
          · rw [if_neg hn] at h1
            exact Or.inl h1
        · exact Or.inr ⟨c, by simp [hc], hne, hgl⟩

/-- A name all of whose groups have no resolvable children never enters the
group-layout map. -/
theorem computeGroupLayoutAux_omits (nls : List (String × Rect)) (name : String) :
    ∀ (gs : List BlockNode) (out : List (String × GroupLayout)),
      getKey out name = none →
      (∀ children, BlockNode.group name children ∈ gs →
        childBoundsOf nls children = []) →
      getKey (computeGroupLayoutAux nls out gs) name = none := by
  intro gs
  induction gs with
  | nil => intro out h1 h2; simpa [computeGroupLayoutAux] using h1
  | cons g rest ih =>
    intro out h1 h2
    match g with
    | .entity id attrs fields raw =>
      simpa [computeGroupLayoutAux] using
        ih out h1 (fun c hc => h2 c (by simp [hc]))
    | .group name2 children2 =>
      by_cases hemp : (childBoundsOf nls children2).isEmpty
      · have h3 : computeGroupLayoutAux nls out (BlockNode.group name2 children2 :: rest) =
            computeGroupLayoutAux nls out rest := by
          simp [computeGroupLayoutAux, hemp]
        rw [h3]
        exact ih out h1 (fun c hc => h2 c (by simp [hc]))
      · have hn : name2 ≠ name := by
          intro hEq; subst hEq
          exact hemp (by simp [h2 children2 (by simp)])
        have h3 : computeGroupLayoutAux nls out (BlockNode.group name2 children2 :: rest) =
            computeGroupLayoutAux nls
              (setKey out name2 ⟨name2, .group name2 children2,
                entityIdsOf children2, GROUP_PADDING,
                groupUnionBounds (childBoundsOf nls children2)⟩) rest := by
          simp [computeGroupLayoutAux, hemp]
        rw [h3]
        refine ih _ ?_ (fun c hc => h2 c (by simp [hc]))
        rw [getKey_setKey, if_neg hn]
        exact h1

/-- C7: every group-layout entry is the padded union of the group's
resolved children's bounds (the enclosing rectangle expanded by 32 on every
side, with the stored padding constant 40); every resolved child rectangle
lies strictly inside by that positive margin; and a group none of whose
children resolve to a node layout is omitted from the map rather than
assigned degenerate bounds. -/
theorem C7_group_bounds :
    (∀ (nls : List (String × Rect)) (groups : List BlockNode)
        (name : String) (gl : GroupLayout),
      getKey (computeGroupLayout groups nls) name = some gl →
      ∃ children, BlockNode.group name children ∈ groups ∧
        childBoundsOf nls children ≠ [] ∧
        gl = ⟨name, BlockNode.group name children, entityIdsOf children,
          GROUP_PADDING, groupUnionBounds (childBoundsOf nls children)⟩) ∧
    (∀ (nls : List (String × Rect)) (groups : List BlockNode) (name : String),
      (∀ children, BlockNode.group name children ∈ groups →
        childBoundsOf nls children = []) →
      getKey (computeGroupLayout groups nls) name = none) ∧
    (∀ (cbs : List Rect) (b : Rect), b ∈ cbs →
      (groupUnionBounds cbs).x + 32 ≤ b.x ∧
      (groupUnionBounds cbs).y + 32 ≤ b.y ∧
      b.x + b.width + 32 ≤ (groupUnionBounds cbs).x + (groupUnionBounds cbs).width ∧
      b.y + b.height + 32 ≤ (groupUnionBounds cbs).y + (groupUnionBounds cbs).height) := by
  refine ⟨?_, ?_, ?_⟩
  · intro nls groups name gl h
    rcases computeGroupLayoutAux_sound nls name groups [] gl h with h1 | h1
    · cases h1
    · exact h1
  · intro nls groups name h
    exact computeGroupLayoutAux_omits nls name groups [] rfl h
  · intro cbs b hb
    have h1 : ratMin (cbs.map fun r => r.x) ≤ b.x :=
      ratMin_le (List.mem_map.mpr ⟨b, hb, rfl⟩)
    have h2 : ratMin (cbs.map fun r => r.y) ≤ b.y :=
      ratMin_le (List.mem_map.mpr ⟨b, hb, rfl⟩)
    have h3 : b.x + b.width ≤ ratMax (cbs.map fun r => r.x + r.width) :=
      le_ratMax (List.mem_map.mpr ⟨b, hb, rfl⟩)
    have h4 : b.y + b.height ≤ ratMax (cbs.map fun r => r.y + r.height) :=
      le_ratMax (List.mem_map.mpr ⟨b, hb, rfl⟩)
    simp only [groupUnionBounds]
    refine ⟨by linarith, by linarith, by linarith, by linarith⟩

theorem C7_group_bounds_witness :
    ∃ children,
      BlockNode.group "G" children ∈
        [BlockNode.group "G" [.entity "A" [] none "A"]] ∧
      childBoundsOf [("A", ⟨0, 0, 10, 10⟩)] children ≠ [] ∧
      (⟨"G", .group "G" [.entity "A" [] none "A"],
          entityIdsOf [BlockNode.entity "A" [] none "A"], GROUP_PADDING,
          groupUnionBounds (childBoundsOf [("A", ⟨0, 0, 10, 10⟩)]
            [BlockNode.entity "A" [] none "A"])⟩ : GroupLayout) =
        ⟨"G", BlockNode.group "G" children, entityIdsOf children,
          GROUP_PADDING,
          groupUnionBounds (childBoundsOf [("A", ⟨0, 0, 10, 10⟩)] children)⟩ :=
  C7_group_bounds.1 [("A", ⟨0, 0, 10, 10⟩)]
    [BlockNode.group "G" [.entity "A" [] none "A"]] "G"
    ⟨"G", .group "G" [.entity "A" [] none "A"],
      entityIdsOf [BlockNode.entity "A" [] none "A"], GROUP_PADDING,
      groupUnionBounds (childBoundsOf [("A", ⟨0, 0, 10, 10⟩)]
        [BlockNode.entity "A" [] none "A"])⟩ (by rfl)
